import Mathlib

/-!
Verification of the core data structures and per-connection state machines of
`fget.c` (point-to-point bulk data-transfer engine over an RDMA-style fabric).

Every definition below is a shallow embedding of the corresponding C function
from `src/transfer/fget.c`; machine counters (`uint64_t insertions`,
`size_t` lengths) are modelled as `Nat`.  The program never performs
2^64 FIFO operations, so the unsigned wrap-around of the 64-bit counters is
unreachable and the `Nat` model agrees with the C semantics on every real
execution; `UINT64_MAX` and `SSIZE_MAX` appear explicitly where the code uses
them as values.
-/

namespace Fget

/-- Result kind of the per-session loop functions (`loop_control_t`). -/
inductive LoopControl
  | loop_continue
  | loop_end
  | loop_error
  | loop_canceled
deriving DecidableEq, Repr

/-- Value of `UINT64_MAX`, the initial close position of a fresh FIFO. -/
def UINT64_MAX : Nat := 2 ^ 64 - 1

/-- Value of `SSIZE_MAX` used by `write_fully` to clamp the write length. -/
def SSIZE_MAX : Nat := 2 ^ 63 - 1

/-- Model of `minsize` from `fget.c` (`(l < r) ? l : r`; the C prototype
returns `int`, which is exact for every in-range size the program passes). -/
def minsize (l r : Nat) : Nat := if l < r then l else r

/-!
## Closeable FIFO (`struct fifo`)

`hdr` models the ring array `bufhdr_t *hdr[]`: a total map from slot index to
the stored item.  `index_mask` is `2^n - 1` for the power-of-two capacity
`2^n`; slot indexing uses `pos &&& index_mask` exactly as the C code computes
`pos & f->index_mask`.
-/

structure Fifo (α : Type) where
  insertions : Nat
  removals : Nat
  index_mask : Nat
  closed : Nat
  hdr : Nat → α

/-- Model of `fifo_create(size)` for a power-of-two `size = 2^n`:
counters at zero, `closed = UINT64_MAX`, ring contents arbitrary
(modelled with the default element). -/
def fifo_create (α : Type) [Inhabited α] (size : Nat) : Fifo α :=
  { insertions := 0
    removals := 0
    index_mask := size - 1
    closed := UINT64_MAX
    hdr := fun _ => default }

/-- Model of `fifo_eoget`: the removal point is at or past the close position. -/
def fifo_eoget {α : Type} (f : Fifo α) : Bool := f.closed ≤ f.removals

/-- Model of `fifo_eoput`: the insertion point is at or past the close position. -/
def fifo_eoput {α : Type} (f : Fifo α) : Bool := f.closed ≤ f.insertions

/-- Model of `fifo_get_close`: freeze the removal side at the current head.
The C function asserts `!fifo_eoget(f)`; on an assert violation the process
aborts and no further operation runs, so the model conservatively leaves the
state unchanged in that (unreachable) case. -/
def fifo_get_close {α : Type} (f : Fifo α) : Fifo α :=
  if fifo_eoget f then f else { f with closed := f.removals }

/-- Model of `fifo_put_close`: freeze the insertion side at the current tail.
The C assert `!fifo_eoput(f)` is modelled as in `fifo_get_close`. -/
def fifo_put_close {α : Type} (f : Fifo α) : Fifo α :=
  if fifo_eoput f then f else { f with closed := f.insertions }

/-- Model of `fifo_alt_get`: remove and return the head item, ignoring the
close position. -/
def fifo_alt_get {α : Type} (f : Fifo α) : Option α × Fifo α :=
  if f.insertions = f.removals then (none, f)
  else (some (f.hdr (f.removals &&& f.index_mask)),
        { f with removals := f.removals + 1 })

/-- Model of `fifo_get`: like `fifo_alt_get`, but failing once the FIFO has
been read up to the close position. -/
def fifo_get {α : Type} (f : Fifo α) : Option α × Fifo α :=
  if fifo_eoget f then (none, f) else fifo_alt_get f

/-- Model of `fifo_alt_empty`. -/
def fifo_alt_empty {α : Type} (f : Fifo α) : Bool := f.insertions == f.removals

/-- Model of `fifo_empty`: empty, or read up to the close position. -/
def fifo_empty {α : Type} (f : Fifo α) : Bool := fifo_eoget f || fifo_alt_empty f

/-- Model of `fifo_peek`: return the head item without removing it. -/
def fifo_peek {α : Type} (f : Fifo α) : Option α :=
  if fifo_empty f then none else some (f.hdr (f.removals &&& f.index_mask))

/-- Model of `fifo_alt_full`. -/
def fifo_alt_full {α : Type} (f : Fifo α) : Bool :=
  f.insertions - f.removals == f.index_mask + 1

/-- Model of `fifo_full`: full, or written up to the close position. -/
def fifo_full {α : Type} (f : Fifo α) : Bool := fifo_eoput f || fifo_alt_full f

/-- Model of `fifo_alt_put`: append `h` at the tail slot
`insertions &&& index_mask` unless the ring is at capacity. -/
def fifo_alt_put {α : Type} (f : Fifo α) (h : α) : Bool × Fifo α :=
  if f.index_mask < f.insertions - f.removals then (false, f)
  else (true,
        { f with
          hdr := fun i => if i = f.insertions &&& f.index_mask then h else f.hdr i
          insertions := f.insertions + 1 })

/-- Model of `fifo_put`: like `fifo_alt_put`, but failing once the FIFO has
been written up to the close position. -/
def fifo_put {α : Type} (f : Fifo α) (h : α) : Bool × Fifo α :=
  if fifo_eoput f then (false, f) else fifo_alt_put f h

/-!
## Claim C1: FIFO close correctness over arbitrary operation sequences
-/

/-- One client-visible FIFO operation. -/
inductive FifoOp (α : Type)
  | put (x : α)
  | get
  | put_close
  | get_close

/-- A FIFO together with the history of successfully inserted items (`puts`)
and successfully removed items (`gets`), in order. -/
structure FifoRun (α : Type) where
  f : Fifo α
  puts : List α
  gets : List α

/-- Apply one operation to a `FifoRun`, recording successful puts and gets. -/
def fifo_step {α : Type} (s : FifoRun α) : FifoOp α → FifoRun α
  | .put x =>
    match fifo_put s.f x with
    | (true, f2) => { s with f := f2, puts := s.puts ++ [x] }
    | (false, f2) => { s with f := f2 }
  | .get =>
    match fifo_get s.f with
    | (some x, f2) => { s with f := f2, gets := s.gets ++ [x] }
    | (none, f2) => { s with f := f2 }
  | .put_close => { s with f := fifo_put_close s.f }
  | .get_close => { s with f := fifo_get_close s.f }

/-- Run a list of operations from a given state. -/
def fifo_run {α : Type} (s : FifoRun α) (ops : List (FifoOp α)) : FifoRun α :=
  ops.foldl fifo_step s

/-- The run that starts from a freshly created FIFO of capacity `2^n`. -/
def fifo_run_init (α : Type) [Inhabited α] (n : Nat) : FifoRun α :=
  { f := fifo_create α (2 ^ n), puts := [], gets := [] }

/-- Run-state invariant tying the ring contents to the put history. -/
def FifoRunInv {α : Type} (n : Nat) (s : FifoRun α) : Prop :=
  s.f.index_mask = 2 ^ n - 1 ∧
  s.f.removals ≤ s.f.insertions ∧
  s.f.insertions - s.f.removals ≤ 2 ^ n ∧
  s.puts.length = s.f.insertions ∧
  s.gets.length = s.f.removals ∧
  (∀ i, s.f.removals ≤ i → i < s.f.insertions →
    s.puts[i]? = some (s.f.hdr (i &&& s.f.index_mask))) ∧
  s.gets = s.puts.take s.f.removals

theorem fifo_run_inv_init {α : Type} [Inhabited α] (n : Nat) :
    FifoRunInv n (fifo_run_init α n) := by
  refine ⟨rfl, le_refl _, by simp [fifo_run_init, fifo_create], rfl, rfl, ?_, rfl⟩
  intro i h1 h2
  exact absurd h2 (by simp [fifo_run_init, fifo_create])

theorem mask_mod {n i : Nat} : i &&& (2 ^ n - 1) = i % 2 ^ n :=
  Nat.and_pow_two_sub_one_eq_mod i n

theorem fifo_step_inv {α : Type} (n : Nat) (s : FifoRun α) (op : FifoOp α)
    (hinv : FifoRunInv n s) : FifoRunInv n (fifo_step s op) := by
  obtain ⟨hmask, hri, hcap, hpl, hgl, hcontent, hpre⟩ := hinv
  cases op with
  | put_close =>
    have hstep : fifo_step s .put_close = { s with f := fifo_put_close s.f } := rfl
    rw [hstep]
    unfold fifo_put_close
    split
    · exact ⟨hmask, hri, hcap, hpl, hgl, hcontent, hpre⟩
    · exact ⟨hmask, hri, hcap, hpl, hgl, hcontent, hpre⟩
  | get_close =>
    have hstep : fifo_step s .get_close = { s with f := fifo_get_close s.f } := rfl
    rw [hstep]
    unfold fifo_get_close
    split
    · exact ⟨hmask, hri, hcap, hpl, hgl, hcontent, hpre⟩
    · exact ⟨hmask, hri, hcap, hpl, hgl, hcontent, hpre⟩
  | get =>
    unfold fifo_step
    dsimp only
    by_cases he : fifo_eoget s.f
    · have hg : fifo_get s.f = (none, s.f) := by simp [fifo_get, he]
      rw [hg]
      exact ⟨hmask, hri, hcap, hpl, hgl, hcontent, hpre⟩
    · by_cases hempty : s.f.insertions = s.f.removals
      · have hg : fifo_get s.f = (none, s.f) := by
          simp [fifo_get, fifo_alt_get, he, hempty]
        rw [hg]
        exact ⟨hmask, hri, hcap, hpl, hgl, hcontent, hpre⟩
      · have hg : fifo_get s.f =
            (some (s.f.hdr (s.f.removals &&& s.f.index_mask)),
             { s.f with removals := s.f.removals + 1 }) := by
          simp [fifo_get, fifo_alt_get, he, hempty]
        rw [hg]
        dsimp only
        have hlt : s.f.removals < s.f.insertions :=
          Nat.lt_of_le_of_ne hri (fun h => hempty h.symm)
        refine ⟨hmask,
          by show s.f.removals + 1 ≤ s.f.insertions; omega,
          by show s.f.insertions - (s.f.removals + 1) ≤ 2 ^ n; omega,
          hpl, ?_, ?_, ?_⟩
        · show (s.gets ++ [_]).length = s.f.removals + 1
          simp [hgl]
        · intro i h1 h2
          have h1a : s.f.removals + 1 ≤ i := h1
          have h2a : i < s.f.insertions := h2
          exact hcontent i (by omega) h2a
        · show s.gets ++ [s.f.hdr (s.f.removals &&& s.f.index_mask)] =
              s.puts.take (s.f.removals + 1)
          have hhd : s.puts[s.f.removals]? =
              some (s.f.hdr (s.f.removals &&& s.f.index_mask)) :=
            hcontent s.f.removals (le_refl _) hlt
          rw [List.take_succ, hhd, hpre]
          rfl
  | put x =>
    unfold fifo_step
    dsimp only
    by_cases he : fifo_eoput s.f
    · have hp : fifo_put s.f x = (false, s.f) := by simp [fifo_put, he]
      rw [hp]
      exact ⟨hmask, hri, hcap, hpl, hgl, hcontent, hpre⟩
    · by_cases hroom : s.f.index_mask < s.f.insertions - s.f.removals
      · have hp : fifo_put s.f x = (false, s.f) := by
          simp [fifo_put, fifo_alt_put, he, hroom]
        rw [hp]
        exact ⟨hmask, hri, hcap, hpl, hgl, hcontent, hpre⟩
      · have hp : fifo_put s.f x =
            (true,
             { s.f with
               hdr := fun i =>
                 if i = s.f.insertions &&& s.f.index_mask then x else s.f.hdr i
               insertions := s.f.insertions + 1 }) := by
          simp [fifo_put, fifo_alt_put, he, hroom]
        rw [hp]
        dsimp only
        have hroom' : s.f.insertions - s.f.removals ≤ 2 ^ n - 1 := by
          rw [hmask] at hroom; omega
        have hpow : 0 < 2 ^ n := Nat.pos_pow_of_pos n (by omega)
        refine ⟨hmask,
          by show s.f.removals ≤ s.f.insertions + 1; omega,
          by show s.f.insertions + 1 - s.f.removals ≤ 2 ^ n; omega,
          ?_, hgl, ?_, ?_⟩
        · show (s.puts ++ [x]).length = s.f.insertions + 1
          simp [hpl]
        · intro i h1 h2
          have h1a : s.f.removals ≤ i := h1
          have h2a : i < s.f.insertions + 1 := h2
          show (s.puts ++ [x])[i]? = _
          by_cases hi : i = s.f.insertions
          · subst hi
            rw [List.getElem?_append_right (by omega)]
            simp [hpl, hmask]
          · have hi2 : i < s.f.insertions := by omega
            rw [List.getElem?_append_left (by omega), hcontent i h1a hi2]
            congr 1
            have hneq : ¬ (i &&& s.f.index_mask = s.f.insertions &&& s.f.index_mask) := by
              rw [hmask, mask_mod, mask_mod]
              intro hmod
              have hdvd : (2 ^ n : Nat) ∣ (s.f.insertions - i) :=
                (Nat.modEq_iff_dvd' (le_of_lt hi2)).mp hmod
              have hge : 2 ^ n ≤ s.f.insertions - i :=
                Nat.le_of_dvd (by omega) hdvd
              omega
            simp [hneq]
        · show s.gets = (s.puts ++ [x]).take s.f.removals
          rw [List.take_append_of_le_length (by omega)]
          exact hpre

theorem fifo_step_eoput_mono {α : Type} (n : Nat) (s : FifoRun α) (op : FifoOp α)
    (hinv : FifoRunInv n s) (h : fifo_eoput s.f = true) :
    fifo_eoput (fifo_step s op).f = true := by
  obtain ⟨hmask, hri, hcap, hpl, hgl, hcontent, hpre⟩ := hinv
  cases op with
  | put_close =>
    show fifo_eoput (fifo_put_close s.f) = true
    unfold fifo_put_close
    rw [if_pos h]
    exact h
  | get_close =>
    show fifo_eoput (fifo_get_close s.f) = true
    unfold fifo_get_close
    split
    · exact h
    · show decide (s.f.removals ≤ s.f.insertions) = true
      simpa using hri
  | put x =>
    have hp : fifo_put s.f x = (false, s.f) := by simp [fifo_put, h]
    show fifo_eoput (fifo_step s (.put x)).f = true
    unfold fifo_step
    dsimp only
    rw [hp]
    exact h
  | get =>
    show fifo_eoput (fifo_step s .get).f = true
    unfold fifo_step
    dsimp only
    by_cases he : fifo_eoget s.f
    · have hg : fifo_get s.f = (none, s.f) := by simp [fifo_get, he]
      rw [hg]
      exact h
    · by_cases hempty : s.f.insertions = s.f.removals
      · have hg : fifo_get s.f = (none, s.f) := by
          simp [fifo_get, fifo_alt_get, he, hempty]
        rw [hg]
        exact h
      · have hg : fifo_get s.f =
            (some (s.f.hdr (s.f.removals &&& s.f.index_mask)),
             { s.f with removals := s.f.removals + 1 }) := by
          simp [fifo_get, fifo_alt_get, he, hempty]
        rw [hg]
        exact h

theorem fifo_step_eoget_mono {α : Type} (n : Nat) (s : FifoRun α) (op : FifoOp α)
    (hinv : FifoRunInv n s) (h : fifo_eoget s.f = true) :
    fifo_eoget (fifo_step s op).f = true := by
  obtain ⟨hmask, hri, hcap, hpl, hgl, hcontent, hpre⟩ := hinv
  have hclosed : s.f.closed ≤ s.f.removals := of_decide_eq_true h
  cases op with
  | get_close =>
    show fifo_eoget (fifo_get_close s.f) = true
    unfold fifo_get_close
    rw [if_pos h]
    exact h
  | put_close =>
    show fifo_eoget (fifo_put_close s.f) = true
    unfold fifo_put_close
    have heoput : fifo_eoput s.f = true := by
      show decide (s.f.closed ≤ s.f.insertions) = true
      simpa using le_trans hclosed hri
    rw [if_pos heoput]
    exact h
  | put x =>
    show fifo_eoget (fifo_step s (.put x)).f = true
    unfold fifo_step
    dsimp only
    by_cases he : fifo_eoput s.f
    · have hp : fifo_put s.f x = (false, s.f) := by simp [fifo_put, he]
      rw [hp]
      exact h
    · by_cases hroom : s.f.index_mask < s.f.insertions - s.f.removals
      · have hp : fifo_put s.f x = (false, s.f) := by
          simp [fifo_put, fifo_alt_put, he, hroom]
        rw [hp]
        exact h
      · have hp : fifo_put s.f x =
            (true,
             { s.f with
               hdr := fun i =>
                 if i = s.f.insertions &&& s.f.index_mask then x else s.f.hdr i
               insertions := s.f.insertions + 1 }) := by
          simp [fifo_put, fifo_alt_put, he, hroom]
        rw [hp]
        exact h
  | get =>
    have hg : fifo_get s.f = (none, s.f) := by simp [fifo_get, h]
    show fifo_eoget (fifo_step s .get).f = true
    unfold fifo_step
    dsimp only
    rw [hg]
    exact h

theorem fifo_run_inv {α : Type} (n : Nat) (s : FifoRun α) (ops : List (FifoOp α))
    (hinv : FifoRunInv n s) : FifoRunInv n (fifo_run s ops) := by
  induction ops generalizing s with
  | nil => exact hinv
  | cons op ops ih =>
    exact ih (fifo_step s op) (fifo_step_inv n s op hinv)

theorem fifo_run_eoput_mono {α : Type} (n : Nat) (s : FifoRun α) (ops : List (FifoOp α))
    (hinv : FifoRunInv n s) (h : fifo_eoput s.f = true) :
    fifo_eoput (fifo_run s ops).f = true := by
  induction ops generalizing s with
  | nil => exact h
  | cons op ops ih =>
    exact ih (fifo_step s op) (fifo_step_inv n s op hinv)
      (fifo_step_eoput_mono n s op hinv h)

theorem fifo_run_eoget_mono {α : Type} (n : Nat) (s : FifoRun α) (ops : List (FifoOp α))
    (hinv : FifoRunInv n s) (h : fifo_eoget s.f = true) :
    fifo_eoget (fifo_run s ops).f = true := by
  induction ops generalizing s with
  | nil => exact h
  | cons op ops ih =>
    exact ih (fifo_step s op) (fifo_step_inv n s op hinv)
      (fifo_step_eoget_mono n s op hinv h)

theorem fifo_run_append {α : Type} (s : FifoRun α) (ops more : List (FifoOp α)) :
    fifo_run s (ops ++ more) = fifo_run (fifo_run s ops) more :=
  List.foldl_append _ _ _ _

/-- Claim C1.  For every FIFO (of any power-of-two capacity `2^n`, as
`fifo_create` requires) and every sequence of put/get/put_close/get_close
operations: after `put_close`, every subsequent `put` fails; after
`get_close`, every subsequent `get` returns nothing (and the FIFO reports
empty); and every item inserted before `put_close` remains retrievable by
`get`, in insertion order, until `get_close` is called — the successful gets
are exactly the first `removals` successful puts, and while the FIFO is not
get-closed the next `get` returns precisely the oldest not-yet-removed
inserted item. -/
theorem C1_fifo_close_correct {α : Type} [Inhabited α]
    (n : Nat) (ops more : List (FifoOp α)) :
    (fifo_eoput (fifo_run (fifo_run_init α n) ops).f = true →
      ∀ x, (fifo_put (fifo_run (fifo_run_init α n) (ops ++ more)).f x).1 = false) ∧
    (fifo_eoget (fifo_run (fifo_run_init α n) ops).f = true →
      (fifo_get (fifo_run (fifo_run_init α n) (ops ++ more)).f).1 = none ∧
      fifo_empty (fifo_run (fifo_run_init α n) (ops ++ more)).f = true) ∧
    ((fifo_run (fifo_run_init α n) ops).gets =
      (fifo_run (fifo_run_init α n) ops).puts.take
        (fifo_run (fifo_run_init α n) ops).f.removals) ∧
    (fifo_eoget (fifo_run (fifo_run_init α n) ops).f = false →
      ∀ x, (fifo_run (fifo_run_init α n) ops).puts[
          (fifo_run (fifo_run_init α n) ops).f.removals]? = some x →
        (fifo_get (fifo_run (fifo_run_init α n) ops).f).1 = some x) := by
  have hinv0 := fifo_run_inv_init (α := α) n
  have hinv := fifo_run_inv n _ ops hinv0
  have hinv2 : FifoRunInv n (fifo_run (fifo_run_init α n) (ops ++ more)) :=
    fifo_run_inv n _ (ops ++ more) hinv0
  obtain ⟨hmask, hri, hcap, hpl, hgl, hcontent, hpre⟩ := hinv
  refine ⟨?_, ?_, hpre, ?_⟩
  · intro h x
    have hmono : fifo_eoput (fifo_run (fifo_run_init α n) (ops ++ more)).f = true := by
      rw [fifo_run_append]
      exact fifo_run_eoput_mono n _ more (fifo_run_inv n _ ops hinv0) h
    simp [fifo_put, hmono]
  · intro h
    have hmono : fifo_eoget (fifo_run (fifo_run_init α n) (ops ++ more)).f = true := by
      rw [fifo_run_append]
      exact fifo_run_eoget_mono n _ more (fifo_run_inv n _ ops hinv0) h
    constructor
    · simp [fifo_get, hmono]
    · simp [fifo_empty, hmono]
  · intro hne x hx
    have hlt : (fifo_run (fifo_run_init α n) ops).f.removals <
        (fifo_run (fifo_run_init α n) ops).f.insertions := by
      have hlen := (List.getElem?_eq_some_iff.mp hx).1
      omega
    have hco := hcontent _ (le_refl _) hlt
    rw [hco] at hx
    have hxval : x = (fifo_run (fifo_run_init α n) ops).f.hdr
        ((fifo_run (fifo_run_init α n) ops).f.removals &&&
          (fifo_run (fifo_run_init α n) ops).f.index_mask) :=
      (Option.some.injEq _ _).mp hx.symm
    have hge : fifo_get (fifo_run (fifo_run_init α n) ops).f =
        (some ((fifo_run (fifo_run_init α n) ops).f.hdr
          ((fifo_run (fifo_run_init α n) ops).f.removals &&&
            (fifo_run (fifo_run_init α n) ops).f.index_mask)),
         { (fifo_run (fifo_run_init α n) ops).f with
             removals := (fifo_run (fifo_run_init α n) ops).f.removals + 1 }) := by
      simp [fifo_get, fifo_alt_get, hne]
      omega
    rw [hge, hxval]

/-- Concrete instantiation of `C1_fifo_close_correct`, discharging each of
its hypotheses on a capacity-4 FIFO run. -/
theorem C1_fifo_close_correct_witness :
    ((fifo_put (fifo_run (fifo_run_init Nat 2)
        ([FifoOp.put 1, FifoOp.put 2, FifoOp.put_close] ++ [FifoOp.get])).f 5).1 = false) ∧
    ((fifo_get (fifo_run (fifo_run_init Nat 2)
        ([FifoOp.put 1, FifoOp.get_close] ++ [FifoOp.put 2])).f).1 = none) ∧
    ((fifo_get (fifo_run (fifo_run_init Nat 2) [FifoOp.put 7, FifoOp.put 9]).f).1 = some 7) := by
  refine ⟨?_, ?_, ?_⟩
  · exact (C1_fifo_close_correct 2 [FifoOp.put 1, FifoOp.put 2, FifoOp.put_close]
      [FifoOp.get]).1 (by decide) 5
  · exact ((C1_fifo_close_correct 2 [FifoOp.put 1, FifoOp.get_close]
      [FifoOp.put 2]).2.1 (by decide)).1
  · exact ((C1_fifo_close_correct (α := Nat) 2 [FifoOp.put 7, FifoOp.put 9]
      []).2.2.2 (by decide)) 7 (by decide)

/-!
## Claim C4: vector-message wellformedness (`vecbuf_is_wellformed`)
-/

/-- Value of `offsetof(vector_msg, iov)`: the `niovs` and `pad` `uint32_t`
fields precede the entry array. -/
def least_vector_msglen : Nat := 8

/-- Value of `sizeof(vb->msg.iov[0])`: three `uint64_t` fields. -/
def vector_iov_size : Nat := 24

/-- Value of `arraycount(vb->msg.iov)`, the hard cap on advertised entries. -/
def vector_iov_capacity : Nat := 12

/-- Model of `vecbuf_is_wellformed` from `fget.c`, over the received length
`nused` (`vb->hdr.nused`) and the declared entry count `niovs`
(`vb->msg.niovs`).  The branch order follows the C if/else chain; the C
computes `niovs_space` up front with `size_t` arithmetic, but only reads it
after the `len < least_vector_msglen` branch has been excluded, so the `Nat`
subtraction below agrees with it. -/
def vecbuf_is_wellformed (nused niovs : Nat) : Bool :=
  if nused < least_vector_msglen then false
  else if (nused - least_vector_msglen) % vector_iov_size ≠ 0 then false
  else if (nused - least_vector_msglen) / vector_iov_size < niovs then false
  else if vector_iov_capacity < niovs then false
  else true

/-- The wellformedness condition as the spec states it. -/
def vecbuf_wellformed_spec (nused niovs : Nat) : Prop :=
  least_vector_msglen ≤ nused ∧
  (nused - least_vector_msglen) % vector_iov_size = 0 ∧
  niovs ≤ (nused - least_vector_msglen) / vector_iov_size ∧
  niovs ≤ vector_iov_capacity

/-- Claim C4.  The vector-message parser accepts a received buffer exactly
when the spec's wellformedness condition holds: `vecbuf_is_wellformed`
returns true iff `len ≥ offsetof(vector_msg, iov)`, the entry bytes are a
multiple of 24, `niovs` does not exceed the byte-implied capacity
`(len - 8) / 24`, and `niovs ≤ 12`. -/
theorem C4_vecbuf_wellformed_iff (nused niovs : Nat) :
    vecbuf_is_wellformed nused niovs = true ↔ vecbuf_wellformed_spec nused niovs := by
  unfold vecbuf_is_wellformed vecbuf_wellformed_spec
  split
  · rename_i h1
    exact ⟨fun hc => (Bool.false_ne_true hc).elim, fun hc => absurd hc.1 (by omega)⟩
  · split
    · rename_i h1 h2
      exact ⟨fun hc => (Bool.false_ne_true hc).elim, fun hc => absurd hc.2.1 h2⟩
    · split
      · rename_i h1 h2 h3
        exact ⟨fun hc => (Bool.false_ne_true hc).elim, fun hc => by omega⟩
      · split
        · rename_i h1 h2 h3 h4
          exact ⟨fun hc => (Bool.false_ne_true hc).elim, fun hc => by omega⟩
        · rename_i h1 h2 h3 h4
          exact ⟨fun _ => ⟨by omega, by omega, by omega, by omega⟩, fun _ => rfl⟩

/-!
## Claim C9: exit-code aggregation (`workers_join_all`)
-/

/-- Observable per-worker result flags read by `workers_join_all`. -/
structure WorkerFlags where
  failed : Bool
  canceled : Bool

/-- Value of `EXIT_SUCCESS`. -/
def EXIT_SUCCESS : Nat := 0

/-- Value of `EXIT_FAILURE`. -/
def EXIT_FAILURE : Nat := 1

/-- Model of the exit-code computation of `workers_join_all`: starting from
`EXIT_SUCCESS`, each allocated worker with `failed` set or whose `canceled`
flag differs from `expect_cancellation` forces `EXIT_FAILURE`.  The
join/signal plumbing around the loop does not touch `code`. -/
def workers_join_all (ws : List WorkerFlags) (expect_cancellation : Bool) : Nat :=
  ws.foldl
    (fun code w =>
      if w.failed || w.canceled != expect_cancellation then EXIT_FAILURE else code)
    EXIT_SUCCESS

theorem workers_join_all_foldl (ws : List WorkerFlags) (e : Bool) (c : Nat) :
    ws.foldl
      (fun code w => if w.failed || w.canceled != e then EXIT_FAILURE else code) c =
    if ws.all (fun w => !w.failed && (w.canceled == e)) then c else EXIT_FAILURE := by
  induction ws generalizing c with
  | nil => simp
  | cons w ws ih =>
    by_cases hw : w.failed || w.canceled != e
    · have hb : (!w.failed && (w.canceled == e)) = false := by
        cases hf : w.failed <;> cases hc : w.canceled <;> cases e <;>
          simp_all
      simp only [List.foldl_cons, List.all_cons, if_pos hw, hb, Bool.false_and,
        Bool.false_eq_true, if_neg (by simp : ¬(false = true))]
      rw [ih]
      split <;> rfl
    · have hb : (!w.failed && (w.canceled == e)) = true := by
        cases hf : w.failed <;> cases hc : w.canceled <;> cases e <;>
          simp_all
      simp only [List.foldl_cons, List.all_cons, if_neg hw, hb, Bool.true_and]
      exact ih c

/-- Claim C9.  `workers_join_all` returns `EXIT_SUCCESS` iff no allocated
worker has its `failed` flag set and every allocated worker's `canceled`
flag equals `expect_cancellation`; otherwise it returns `EXIT_FAILURE`. -/
theorem C9_workers_join_all_exit_code (ws : List WorkerFlags) (e : Bool) :
    (workers_join_all ws e = EXIT_SUCCESS ↔
       ∀ w ∈ ws, w.failed = false ∧ w.canceled = e) ∧
    (workers_join_all ws e = EXIT_SUCCESS ∨ workers_join_all ws e = EXIT_FAILURE) := by
  unfold workers_join_all
  rw [workers_join_all_foldl]
  constructor
  · split
    · rename_i hall
      simp only [EXIT_SUCCESS, true_iff]
      intro w hw
      have := List.all_eq_true.mp hall w hw
      cases hf : w.failed <;> cases hc : w.canceled <;> cases e <;> simp_all
    · rename_i hall
      simp only [EXIT_FAILURE, EXIT_SUCCESS]
      constructor
      · intro h
        exact absurd h (by omega)
      · intro hprop
        exfalso
        apply hall
        apply List.all_eq_true.mpr
        intro w hw
        have := hprop w hw
        cases hf : w.failed <;> cases hc : w.canceled <;> cases e <;> simp_all
  · split
    · exact Or.inl rfl
    · exact Or.inr rfl

/-!
## Claim C10: `fibonacci_iov_setup`

The C function fills `iov[i] = (base pointer, length)` entries; the model
returns the filled entries as a list of `(byte offset into the buffer,
length)` pairs.  `slots` counts the remaining iterations the C `for` loop may
still run (`niovs - 1 - i`); the trailing `if (len > 0)` entry corresponds to
the `slots = 0` case.  The C return value is the number of filled entries,
i.e. the length of the returned list.
-/

/-- Loop of `fibonacci_iov_setup`: `prev`/`curr` hold the Fibonacci state
(`state.prev`, `state.curr`), and each entry's length is
`(state.curr < len) ? state.curr : len`. -/
def fibonacci_iov_go (buf len prev curr slots : Nat) : List (Nat × Nat) :=
  match slots with
  | 0 => if 0 < len then [(buf, len)] else []
  | s + 1 =>
    if 0 < len then
      (buf, minsize curr len) ::
        fibonacci_iov_go (buf + minsize curr len) (len - minsize curr len)
          curr (prev + curr) s
    else []

/-- Model of `fibonacci_iov_setup(buf, len, iov, niovs)` with `buf = 0`;
defined for `niovs ≥ 1` (the callers bail out otherwise, and the claim
assumes `niovs ≥ 1`). -/
def fibonacci_iov_setup (len niovs : Nat) : List (Nat × Nat) :=
  fibonacci_iov_go 0 len 0 1 (niovs - 1)

theorem fibonacci_iov_go_sum (buf len prev curr slots : Nat) :
    ((fibonacci_iov_go buf len prev curr slots).map Prod.snd).sum = len := by
  induction slots generalizing buf len prev curr with
  | zero =>
    unfold fibonacci_iov_go
    split
    · simp
    · rename_i h
      simp
      omega
  | succ s ih =>
    unfold fibonacci_iov_go
    split
    · rename_i hlen
      have hmin : minsize curr len ≤ len := by unfold minsize; split <;> omega
      simp only [List.map_cons, List.sum_cons, ih]
      omega
    · rename_i h
      simp
      omega

theorem fibonacci_iov_go_length (buf len prev curr slots : Nat) :
    (fibonacci_iov_go buf len prev curr slots).length ≤ slots + 1 := by
  induction slots generalizing buf len prev curr with
  | zero =>
    unfold fibonacci_iov_go
    split <;> simp
  | succ s ih =>
    unfold fibonacci_iov_go
    split
    · simpa using Nat.succ_le_succ (ih _ _ _ _)
    · simp

theorem fibonacci_iov_go_base (buf len prev curr slots : Nat) :
    ∀ i, (hi : i < (fibonacci_iov_go buf len prev curr slots).length) →
      ((fibonacci_iov_go buf len prev curr slots)[i]).1 =
        buf + (((fibonacci_iov_go buf len prev curr slots).take i).map Prod.snd).sum := by
  induction slots generalizing buf len prev curr with
  | zero =>
    intro i hi
    unfold fibonacci_iov_go at hi ⊢
    split at hi
    · rename_i h
      simp only [List.length_singleton] at hi
      have hz : i = 0 := by omega
      subst hz
      simp [h]
    · simp at hi
  | succ s ih =>
    intro i hi
    unfold fibonacci_iov_go at hi ⊢
    split at hi
    · rename_i hlen
      simp only [if_pos hlen]
      cases i with
      | zero => simp
      | succ j =>
        have hj : j < (fibonacci_iov_go (buf + minsize curr len)
            (len - minsize curr len) curr (prev + curr) s).length := by
          simpa using hi
        have hrec := ih (buf + minsize curr len) (len - minsize curr len)
          curr (prev + curr) j hj
        simp only [List.getElem_cons_succ, List.take_succ_cons, List.map_cons,
          List.sum_cons, hrec]
        omega
    · simp at hi

theorem fibonacci_iov_go_pos (buf len prev curr slots : Nat) (hcurr : 0 < curr) :
    ∀ i, (hi : i < (fibonacci_iov_go buf len prev curr slots).length) →
      0 < ((fibonacci_iov_go buf len prev curr slots)[i]).2 := by
  induction slots generalizing buf len prev curr with
  | zero =>
    intro i hi
    unfold fibonacci_iov_go at hi ⊢
    split at hi
    · rename_i hlen
      simp only [List.length_singleton] at hi
      have hz : i = 0 := by omega
      subst hz
      simp only [if_pos hlen, List.getElem_singleton]
      exact hlen
    · simp at hi
  | succ s ih =>
    intro i hi
    unfold fibonacci_iov_go at hi ⊢
    split at hi
    · rename_i hlen
      simp only [if_pos hlen]
      cases i with
      | zero =>
        show 0 < minsize curr len
        unfold minsize
        split <;> omega
      | succ j =>
        have hj : j < (fibonacci_iov_go (buf + minsize curr len)
            (len - minsize curr len) curr (prev + curr) s).length := by
          simpa using hi
        simpa using ih (buf + minsize curr len) (len - minsize curr len)
          curr (prev + curr) (by omega) j hj
    · simp at hi

theorem fibonacci_iov_go_fib (slots : Nat) :
    ∀ buf len prev curr k i, prev = Nat.fib k → curr = Nat.fib (k + 1) →
      i + 1 < (fibonacci_iov_go buf len prev curr slots).length →
      (hi : i < (fibonacci_iov_go buf len prev curr slots).length) →
      ((fibonacci_iov_go buf len prev curr slots)[i]).2 =
        minsize (Nat.fib (k + 1 + i))
          (len - (((fibonacci_iov_go buf len prev curr slots).take i).map
            Prod.snd).sum) := by
  induction slots with
  | zero =>
    intro buf len prev curr k i hp hc hi1 hi
    unfold fibonacci_iov_go at hi1
    split at hi1 <;> simp at hi1
  | succ s ih =>
    intro buf len prev curr k i hp hc hi1 hi
    unfold fibonacci_iov_go at hi1 hi ⊢
    split at hi1
    · rename_i hlen0
      simp only [if_pos hlen0]
      cases i with
      | zero =>
        simp only [List.getElem_cons_zero, List.take_zero, List.map_nil,
          List.sum_nil, Nat.sub_zero, Nat.add_zero]
        rw [hc]
      | succ j =>
        have hj1 : j + 1 < (fibonacci_iov_go (buf + minsize curr len)
            (len - minsize curr len) curr (prev + curr) s).length := by
          simpa using hi1
        have hj : j < (fibonacci_iov_go (buf + minsize curr len)
            (len - minsize curr len) curr (prev + curr) s).length := by omega
        have hcurr2 : prev + curr = Nat.fib (k + 1 + 1) := by
          rw [hp, hc, Nat.fib_add_two]
        have hrec := ih (buf + minsize curr len) (len - minsize curr len)
          curr (prev + curr) (k + 1) j hc hcurr2 hj1 hj
        simp only [List.getElem_cons_succ, List.take_succ_cons, List.map_cons,
          List.sum_cons, hrec]
        have harith : k + 1 + 1 + j = k + 1 + (j + 1) := by omega
        rw [harith]
        congr 1
        have hmin : minsize curr len ≤ len := by
          unfold minsize; split <;> omega
        omega
    · simp at hi1

/-- Claim C10.  For every buffer, every `len > 0` and every `niovs ≥ 1`,
`fibonacci_iov_setup` fills at most `niovs` entries that partition exactly
the first `len` bytes of the buffer into contiguous non-overlapping segments
in address order (each entry's offset is the sum of the preceding lengths,
every length is positive, and the lengths sum to `len`); each entry except
possibly the last has the successive Fibonacci lengths 1, 1, 2, 3, 5, ...
capped by the bytes remaining; the last entry absorbs the remainder; and the
returned value is the number of entries filled (the length of the modelled
list). -/
theorem C10_fibonacci_iov_setup_correct (len niovs : Nat)
    (hlen : 0 < len) (hniovs : 1 ≤ niovs) :
    (fibonacci_iov_setup len niovs).length ≤ niovs ∧
    ((fibonacci_iov_setup len niovs).map Prod.snd).sum = len ∧
    (∀ i, (hi : i < (fibonacci_iov_setup len niovs).length) →
      ((fibonacci_iov_setup len niovs)[i]).1 =
        (((fibonacci_iov_setup len niovs).take i).map Prod.snd).sum) ∧
    (∀ i, (hi : i < (fibonacci_iov_setup len niovs).length) →
      0 < ((fibonacci_iov_setup len niovs)[i]).2) ∧
    (∀ i, i + 1 < (fibonacci_iov_setup len niovs).length →
      (hi : i < (fibonacci_iov_setup len niovs).length) →
      ((fibonacci_iov_setup len niovs)[i]).2 =
        minsize (Nat.fib (i + 1))
          (len - (((fibonacci_iov_setup len niovs).take i).map Prod.snd).sum)) ∧
    (∀ i, i + 1 = (fibonacci_iov_setup len niovs).length →
      (hi : i < (fibonacci_iov_setup len niovs).length) →
      ((fibonacci_iov_setup len niovs)[i]).2 =
        len - (((fibonacci_iov_setup len niovs).take i).map Prod.snd).sum) := by
  refine ⟨?_, fibonacci_iov_go_sum 0 len 0 1 (niovs - 1), ?_, ?_, ?_, ?_⟩
  · have := fibonacci_iov_go_length 0 len 0 1 (niovs - 1)
    unfold fibonacci_iov_setup
    omega
  · intro i hi
    simpa using fibonacci_iov_go_base 0 len 0 1 (niovs - 1) i hi
  · intro i hi
    exact fibonacci_iov_go_pos 0 len 0 1 (niovs - 1) (by omega) i hi
  · intro i hi1 hi
    unfold fibonacci_iov_setup at hi1 hi ⊢
    have hres := fibonacci_iov_go_fib (niovs - 1) 0 len 0 1 0 i
      (by simp) (by simp) hi1 hi
    rw [hres]
    congr 2
    omega
  · intro i hi1 hi
    have hsum := fibonacci_iov_go_sum 0 len 0 1 (niovs - 1)
    unfold fibonacci_iov_setup at hi1 hi ⊢
    have hsplit : fibonacci_iov_go 0 len 0 1 (niovs - 1) =
        (fibonacci_iov_go 0 len 0 1 (niovs - 1)).take i ++
        (fibonacci_iov_go 0 len 0 1 (niovs - 1)).drop i := (List.take_append_drop _ _).symm
    have hdrop : (fibonacci_iov_go 0 len 0 1 (niovs - 1)).drop i =
        [(fibonacci_iov_go 0 len 0 1 (niovs - 1))[i]] := by
      have hlast : (fibonacci_iov_go 0 len 0 1 (niovs - 1)).drop i =
          (fibonacci_iov_go 0 len 0 1 (niovs - 1))[i] ::
            (fibonacci_iov_go 0 len 0 1 (niovs - 1)).drop (i + 1) := by
        exact (List.drop_eq_getElem_cons hi)
      rw [hlast, List.drop_eq_nil_of_le (by omega)]
    calc ((fibonacci_iov_go 0 len 0 1 (niovs - 1))[i]).2
        = ((((fibonacci_iov_go 0 len 0 1 (niovs - 1)).take i).map Prod.snd).sum +
            ((fibonacci_iov_go 0 len 0 1 (niovs - 1))[i]).2) -
            (((fibonacci_iov_go 0 len 0 1 (niovs - 1)).take i).map Prod.snd).sum := by omega
      _ = len - (((fibonacci_iov_go 0 len 0 1 (niovs - 1)).take i).map Prod.snd).sum := by
          congr 1
          conv_rhs => rw [← hsum]
          conv_rhs => rw [hsplit]
          rw [List.map_append, List.sum_append, hdrop]
          simp

/-- Concrete instantiation of `C10_fibonacci_iov_setup_correct` at
`len = 12`, `niovs = 4` (entries 1, 1, 2, 8: three Fibonacci entries and a
final remainder entry). -/
theorem C10_fibonacci_iov_setup_witness :
    fibonacci_iov_setup 12 4 = [(0, 1), (1, 1), (2, 2), (4, 8)] ∧
    (fibonacci_iov_setup 12 4).length ≤ 4 ∧
    ((fibonacci_iov_setup 12 4).map Prod.snd).sum = 12 ∧
    ((fibonacci_iov_setup 12 4).get ⟨2, by decide⟩).1 =
      (((fibonacci_iov_setup 12 4).take 2).map Prod.snd).sum := by
  have h := C10_fibonacci_iov_setup_correct 12 4 (by decide) (by decide)
  exact ⟨by decide, h.1, h.2.1, h.2.2.1 2 (by decide)⟩

/-!
## Claim C5: `write_fully`

Local I/O vectors (`struct iovec`) are modelled as `(base, len)` pairs with
`base` a byte address; remote RMA vectors (`struct fi_rma_iov`) as
`(addr, len, key)` triples.  `write_fully` is modelled for the case the
claim assumes — `fi_writemsg` succeeds (`rc == 0`) — so the transmit-slice
arrays built for the `fi_writemsg` call itself are not observable: the C
code overwrites them with the leftover slices immediately afterwards, and
only those leftovers and the returned length reach the caller.
`*p.niovs_out` and `*p.nriovs_out` are the lengths of the modelled leftover
lists.
-/

structure Iovec where
  base : Nat
  len : Nat
deriving DecidableEq, Repr

structure RmaIov where
  addr : Nat
  len : Nat
  key : Nat
deriving DecidableEq, Repr

/-- Model of the post-`fi_writemsg` local-leftover loop of `write_fully`:
entries whose bytes are entirely within the first `nrem` remaining bytes are
skipped (`continue`), the first partly-consumed entry is advanced, and the
rest are copied through with `nremaining == 0`. -/
def iov_leftovers (nrem : Nat) : List Iovec → List Iovec
  | [] => []
  | v :: rest =>
    if v.len ≤ nrem then iov_leftovers (nrem - v.len) rest
    else { base := v.base + nrem, len := v.len - nrem } :: iov_leftovers 0 rest

/-- Model of the remote-leftover loop of `write_fully` (same shape; the
`addr` advances and `key` is preserved by the struct copy). -/
def riov_leftovers (nrem : Nat) : List RmaIov → List RmaIov
  | [] => []
  | v :: rest =>
    if v.len ≤ nrem then riov_leftovers (nrem - v.len) rest
    else { addr := v.addr + nrem, len := v.len - nrem, key := v.key } ::
      riov_leftovers 0 rest

structure WriteFullyResult where
  len : Nat
  iov_out : List Iovec
  riov_out : List RmaIov
deriving DecidableEq, Repr

/-- Model of `write_fully` when `fi_writemsg` returns 0: the length
computation (sums of the first `min(maxsegs, n)` input vectors, clamped by
`p.len` and `SSIZE_MAX`) and the leftover slices written to the out
arrays. -/
def write_fully (iov_in : List Iovec) (riov_in : List RmaIov)
    (plen maxsegs : Nat) : WriteFullyResult :=
  let msl := minsize maxsegs iov_in.length
  let msr := minsize maxsegs riov_in.length
  let suml := ((iov_in.take msl).map Iovec.len).sum
  let sumr := ((riov_in.take msr).map RmaIov.len).sum
  let len := minsize (minsize suml sumr) (minsize plen SSIZE_MAX)
  { len := len
    iov_out := iov_leftovers len iov_in
    riov_out := riov_leftovers len riov_in }

/-- The claim's description of the out arrays: walking the full input list
with the running byte offset `cum`, an entry wholly covered by the first
`len` written bytes is dropped, and a partly covered one is kept with its
base advanced and its length reduced by the consumed amount. -/
def iov_remainders_spec (len cum : Nat) : List Iovec → List Iovec
  | [] => []
  | v :: rest =>
    (if v.len ≤ minsize v.len (len - cum) then []
     else [{ base := v.base + minsize v.len (len - cum)
             len := v.len - minsize v.len (len - cum) }]) ++
      iov_remainders_spec len (cum + v.len) rest

/-- Remote-side version of `iov_remainders_spec`. -/
def riov_remainders_spec (len cum : Nat) : List RmaIov → List RmaIov
  | [] => []
  | v :: rest =>
    (if v.len ≤ minsize v.len (len - cum) then []
     else [{ addr := v.addr + minsize v.len (len - cum)
             len := v.len - minsize v.len (len - cum)
             key := v.key }]) ++
      riov_remainders_spec len (cum + v.len) rest

theorem minsize_eq_min (l r : Nat) : minsize l r = min l r := by
  unfold minsize
  split <;> omega

theorem iov_leftovers_spec (len : Nat) (l : List Iovec) :
    ∀ cum, iov_leftovers (len - cum) l = iov_remainders_spec len cum l := by
  induction l with
  | nil => intro cum; rfl
  | cons v rest ih =>
    intro cum
    unfold iov_leftovers iov_remainders_spec
    by_cases hc : v.len ≤ len - cum
    · have hmin : minsize v.len (len - cum) = v.len := by
        unfold minsize; split <;> omega
      rw [if_pos hc, hmin, if_pos (le_refl _)]
      have harith : len - cum - v.len = len - (cum + v.len) := by omega
      rw [harith, ih (cum + v.len)]
      rfl
    · have hmin : minsize v.len (len - cum) = len - cum := by
        unfold minsize; split <;> omega
      rw [if_neg hc, hmin, if_neg (by omega)]
      have harith : (0 : Nat) = len - (cum + v.len) := by omega
      rw [harith, ih (cum + v.len)]
      rfl

theorem riov_leftovers_spec (len : Nat) (l : List RmaIov) :
    ∀ cum, riov_leftovers (len - cum) l = riov_remainders_spec len cum l := by
  induction l with
  | nil => intro cum; rfl
  | cons v rest ih =>
    intro cum
    unfold riov_leftovers riov_remainders_spec
    by_cases hc : v.len ≤ len - cum
    · have hmin : minsize v.len (len - cum) = v.len := by
        unfold minsize; split <;> omega
      rw [if_pos hc, hmin, if_pos (le_refl _)]
      have harith : len - cum - v.len = len - (cum + v.len) := by omega
      rw [harith, ih (cum + v.len)]
      rfl
    · have hmin : minsize v.len (len - cum) = len - cum := by
        unfold minsize; split <;> omega
      rw [if_neg hc, hmin, if_neg (by omega)]
      have harith : (0 : Nat) = len - (cum + v.len) := by omega
      rw [harith, ih (cum + v.len)]
      rfl

/-- Claim C5.  For every input where `fi_writemsg` succeeds, `write_fully`
returns `len = min(sum of the first min(maxsegs, niovs) local IOV lengths,
sum of the first min(maxsegs, nriovs) remote IOV lengths, p.len)`, and the
out arrays hold exactly the unconsumed remainders of the full input vectors:
every input entry wholly covered by the first `len` bytes is dropped, a
partly covered entry is kept with its base/addr advanced and its length
reduced by the consumed amount, and the out counts are the numbers of
remaining local and remote entries.  (`p.len ≤ SSIZE_MAX` holds for every
length the program passes; the C code clamps by `SSIZE_MAX` explicitly.) -/
theorem C5_write_fully_correct (iov_in : List Iovec) (riov_in : List RmaIov)
    (plen maxsegs : Nat) (hp : plen ≤ SSIZE_MAX) :
    (write_fully iov_in riov_in plen maxsegs).len =
      min (min (((iov_in.take (min maxsegs iov_in.length)).map Iovec.len).sum)
               (((riov_in.take (min maxsegs riov_in.length)).map RmaIov.len).sum))
          plen ∧
    (write_fully iov_in riov_in plen maxsegs).iov_out =
      iov_remainders_spec (write_fully iov_in riov_in plen maxsegs).len 0 iov_in ∧
    (write_fully iov_in riov_in plen maxsegs).riov_out =
      riov_remainders_spec (write_fully iov_in riov_in plen maxsegs).len 0 riov_in ∧
    (write_fully iov_in riov_in plen maxsegs).iov_out.length =
      (iov_remainders_spec (write_fully iov_in riov_in plen maxsegs).len 0 iov_in).length ∧
    (write_fully iov_in riov_in plen maxsegs).riov_out.length =
      (riov_remainders_spec (write_fully iov_in riov_in plen maxsegs).len 0 riov_in).length := by
  have hlen : (write_fully iov_in riov_in plen maxsegs).len =
      min (min (((iov_in.take (min maxsegs iov_in.length)).map Iovec.len).sum)
               (((riov_in.take (min maxsegs riov_in.length)).map RmaIov.len).sum))
          plen := by
    show minsize (minsize _ _) (minsize plen SSIZE_MAX) = _
    rw [minsize_eq_min, minsize_eq_min, minsize_eq_min, minsize_eq_min,
      minsize_eq_min]
    have hclamp : min plen SSIZE_MAX = plen := by omega
    rw [hclamp]
  have hiov : (write_fully iov_in riov_in plen maxsegs).iov_out =
      iov_remainders_spec (write_fully iov_in riov_in plen maxsegs).len 0 iov_in := by
    show iov_leftovers (write_fully iov_in riov_in plen maxsegs).len iov_in = _
    have h0 : (write_fully iov_in riov_in plen maxsegs).len =
        (write_fully iov_in riov_in plen maxsegs).len - 0 := rfl
    rw [h0]
    exact iov_leftovers_spec _ iov_in 0
  have hriov : (write_fully iov_in riov_in plen maxsegs).riov_out =
      riov_remainders_spec (write_fully iov_in riov_in plen maxsegs).len 0 riov_in := by
    show riov_leftovers (write_fully iov_in riov_in plen maxsegs).len riov_in = _
    have h0 : (write_fully iov_in riov_in plen maxsegs).len =
        (write_fully iov_in riov_in plen maxsegs).len - 0 := rfl
    rw [h0]
    exact riov_leftovers_spec _ riov_in 0
  exact ⟨hlen, hiov, hriov, by rw [hiov], by rw [hriov]⟩

/-- Concrete instantiation of `C5_write_fully_correct`: two local vectors of
5 and 10 bytes, two remote targets of 7 and 4 bytes, `p.len = 9`,
`maxsegs = 2`; 9 bytes are written, the first local entry and the first
remote target are consumed, and the leftovers are advanced. -/
theorem C5_write_fully_witness :
    write_fully [⟨0, 5⟩, ⟨5, 10⟩] [⟨100, 7, 1⟩, ⟨200, 4, 2⟩] 9 2 =
      { len := 9, iov_out := [⟨9, 6⟩], riov_out := [⟨202, 2, 2⟩] } ∧
    (write_fully [⟨0, 5⟩, ⟨5, 10⟩] [⟨100, 7, 1⟩, ⟨200, 4, 2⟩] 9 2).len =
      min (min 15 11) 9 := by
  constructor
  · decide
  · have h := (C5_write_fully_correct [⟨0, 5⟩, ⟨5, 10⟩] [⟨100, 7, 1⟩, ⟨200, 4, 2⟩]
      9 2 (by decide)).1
    rw [h]
    decide

/-!
## Fifo helper lemmas shared by the state-machine claims

`fifo_pending f` abstracts the live ring contents (the items at positions
`removals ≤ p < insertions`, read from their slots); `FifoValid` is the
ring-buffer wellformedness that `fifo_create` establishes and every
operation preserves.
-/

/-- Live contents of the ring, oldest first, ignoring the close position. -/
def fifo_pending {α : Type} (f : Fifo α) : List α :=
  (List.range (f.insertions - f.removals)).map
    (fun k => f.hdr ((f.removals + k) &&& f.index_mask))

/-- Ring-buffer wellformedness: power-of-two capacity, removals do not
overtake insertions, occupancy within capacity. -/
def FifoValid {α : Type} (m : Nat) (f : Fifo α) : Prop :=
  f.index_mask = 2 ^ m - 1 ∧
  f.removals ≤ f.insertions ∧
  f.insertions - f.removals ≤ 2 ^ m

theorem slot_ne_of_lt {m a b : Nat} (h1 : a < b) (h2 : b - a < 2 ^ m) :
    ¬ (a &&& (2 ^ m - 1) = b &&& (2 ^ m - 1)) := by
  rw [mask_mod, mask_mod]
  intro hmod
  have hdvd : 2 ^ m ∣ (b - a) := (Nat.modEq_iff_dvd' (le_of_lt h1)).mp hmod
  have := Nat.le_of_dvd (by omega) hdvd
  omega

theorem fifo_peek_some {α : Type} (f : Fifo α) (h : α)
    (hp : fifo_peek f = some h) (hv : f.removals ≤ f.insertions) :
    fifo_eoget f = false ∧ f.removals < f.insertions ∧
    fifo_get f = (some h, { f with removals := f.removals + 1 }) := by
  unfold fifo_peek at hp
  by_cases he : fifo_empty f
  · rw [if_pos he] at hp
    exact absurd hp (by simp)
  · rw [if_neg he] at hp
    unfold fifo_empty at he
    have heo : fifo_eoget f = false := by
      cases heq : fifo_eoget f
      · rfl
      · rw [heq] at he
        simp at he
    have hne : f.insertions ≠ f.removals := by
      intro hc
      apply he
      unfold fifo_alt_empty
      rw [heo, hc]
      simp
    refine ⟨heo, by omega, ?_⟩
    unfold fifo_get fifo_alt_get
    rw [heo, if_neg hne]
    simp only [Option.some.injEq] at hp
    rw [hp]
    rfl

theorem fifo_get_pending {α : Type} (f : Fifo α) (h : α)
    (hp : fifo_peek f = some h) (hv : f.removals ≤ f.insertions) :
    fifo_pending f = h :: fifo_pending (fifo_get f).2 := by
  obtain ⟨heo, hlt, hget⟩ := fifo_peek_some f h hp hv
  rw [hget]
  unfold fifo_pending
  have hn : f.insertions - f.removals = (f.insertions - (f.removals + 1)) + 1 := by
    omega
  rw [hn, List.range_succ_eq_map]
  simp only [List.map_cons, List.map_map]
  congr 1
  · unfold fifo_peek at hp
    split at hp
    · exact absurd hp (by simp)
    · simp only [Option.some.injEq] at hp
      rw [Nat.add_zero, hp]
  · apply List.map_congr_left
    intro k hk
    simp only [Function.comp]
    congr 2
    omega

theorem fifo_put_pending {α : Type} (m : Nat) (f : Fifo α) (h : α)
    (hva : FifoValid m f) (hfull : fifo_full f = false) :
    (fifo_put f h).1 = true ∧
    fifo_pending (fifo_put f h).2 = fifo_pending f ++ [h] ∧
    FifoValid m (fifo_put f h).2 ∧
    (fifo_put f h).2.closed = f.closed ∧
    (fifo_put f h).2.index_mask = f.index_mask := by
  obtain ⟨hmask, hv, hcap⟩ := hva
  have hpow : 0 < 2 ^ m := Nat.pos_pow_of_pos m (by omega)
  unfold fifo_full at hfull
  have heop : fifo_eoput f = false := by
    cases heq : fifo_eoput f
    · rfl
    · rw [heq] at hfull; simp at hfull
  have hnf : fifo_alt_full f = false := by
    cases heq : fifo_alt_full f
    · rfl
    · rw [heq, heop] at hfull; simp at hfull
  have hocc : f.insertions - f.removals ≤ 2 ^ m - 1 := by
    unfold fifo_alt_full at hnf
    rw [hmask] at hnf
    have : ¬ (f.insertions - f.removals = 2 ^ m - 1 + 1) := by
      simpa using hnf
    omega
  have hput : fifo_put f h =
      (true,
       { f with
         hdr := fun i => if i = f.insertions &&& f.index_mask then h else f.hdr i
         insertions := f.insertions + 1 }) := by
    unfold fifo_put fifo_alt_put
    rw [heop]
    rw [if_neg (by simp : ¬ ((false : Bool) = true))]
    rw [if_neg (show ¬ f.index_mask < f.insertions - f.removals by rw [hmask]; omega)]
  rw [hput]
  refine ⟨rfl, ?_,
    ⟨hmask, by show f.removals ≤ f.insertions + 1; omega,
     by show f.insertions + 1 - f.removals ≤ 2 ^ m; omega⟩, rfl, rfl⟩
  unfold fifo_pending
  show (List.range (f.insertions + 1 - f.removals)).map _ = _
  have hn : f.insertions + 1 - f.removals = (f.insertions - f.removals) + 1 := by
    omega
  rw [hn, List.range_succ, List.map_append]
  congr 1
  · apply List.map_congr_left
    intro k hk
    simp only [List.mem_range] at hk
    have hne : ¬ ((f.removals + k) &&& f.index_mask =
        f.insertions &&& f.index_mask) := by
      rw [hmask]
      exact slot_ne_of_lt (by omega) (by omega)
    simp [hne]
  · simp only [List.map_cons, List.map_nil]
    have hslot : f.removals + (f.insertions - f.removals) = f.insertions := by
      omega
    rw [hslot]
    simp

/-!
## Claim C8: `sink_trade`
-/

/-- Payload buffer as the sink reads it (`bytebuf_t`): `nused` filled bytes
of `payload`. -/
structure PayBuf where
  nused : Nat
  payload : List Nat
deriving DecidableEq, Repr

instance : Inhabited PayBuf := ⟨⟨0, []⟩⟩

/-- Sink state (`sink_t`). -/
structure Sink where
  idx : Nat
  txbuflen : Nat
  entirelen : Nat
deriving DecidableEq, Repr

/-- Model of `sink_init`: index zero, `entirelen = txbuflen * 100000`. -/
def sink_init (txbuflen : Nat) : Sink :=
  { idx := 0, txbuflen := txbuflen, entirelen := txbuflen * 100000 }

/-- Byte-wise content check of the verification loop in `sink_trade`.  The C
code compares in chunks (each `memcmp` covers
`min(nused - ofs, txbuflen - (idx + ofs) % txbuflen)` bytes), which over all
chunks compares exactly byte `ofs` of the payload with byte
`(idx + ofs) % txbuflen` of the reference text, for every `ofs < nused`. -/
def sink_buf_matches (txbuf : List Nat) (txbuflen idx : Nat) (b : PayBuf) : Bool :=
  (List.range b.nused).all fun ofs =>
    b.payload.getD ofs 0 == txbuf.getD ((idx + ofs) % txbuflen) 0

/-- Result of one `sink_trade` while-loop execution; `moved` is a ghost
trace of the buffers moved to `completed`, and `failed` records an exit
through the `fail` label. -/
structure SinkLoopOut where
  failed : Bool
  s : Sink
  ready : Fifo PayBuf
  completed : Fifo PayBuf
  moved : List PayBuf

/-- The while loop of `sink_trade`: peek a filled buffer, stop when
`completed` is full, fail on overrun (`h->nused + s->idx > s->entirelen`) or
content mismatch, otherwise dequeue it from `ready`, enqueue it on
`completed` and advance `idx`.  The `removals < insertions` guard on the
recursive call restates the ring validity that `fifo_create` establishes (in
C the loop variant is the same quantity); under `FifoValid` it follows from
the successful peek. -/
def sink_trade_loop (txbuf : List Nat) (s : Sink)
    (ready completed : Fifo PayBuf) : SinkLoopOut :=
  match hpk : fifo_peek ready with
  | none => ⟨false, s, ready, completed, []⟩
  | some h =>
    if fifo_full completed then ⟨false, s, ready, completed, []⟩
    else if s.entirelen < h.nused + s.idx then ⟨true, s, ready, completed, []⟩
    else if sink_buf_matches txbuf s.txbuflen s.idx h = false then
      ⟨true, s, ready, completed, []⟩
    else if hlt : ready.removals < ready.insertions then
      let out := sink_trade_loop txbuf { s with idx := s.idx + h.nused }
        (fifo_get ready).2 (fifo_put completed h).2
      ⟨out.failed, out.s, out.ready, out.completed, h :: out.moved⟩
    else ⟨false, s, ready, completed, []⟩
  termination_by ready.insertions - ready.removals
  decreasing_by
    obtain ⟨heo, hlt2, hget⟩ := fifo_peek_some ready h hpk (le_of_lt hlt)
    have h1 : (fifo_get ready).2.removals = ready.removals + 1 := by rw [hget]
    have h2 : (fifo_get ready).2.insertions = ready.insertions := by rw [hget]
    omega

/-- The claim's per-buffer verification condition along a trace of moved
buffers: each moved buffer fits in the remaining budget and matches the
reference text at its running offset. -/
def sink_moved_ok (txbuf : List Nat) (txbuflen entirelen : Nat) :
    Nat → List PayBuf → Bool
  | _, [] => true
  | idx, h :: rest =>
    decide (h.nused + idx ≤ entirelen) && sink_buf_matches txbuf txbuflen idx h &&
      sink_moved_ok txbuf txbuflen entirelen (idx + h.nused) rest

theorem sink_trade_loop_spec (txbuf : List Nat) (m2 : Nat) :
    ∀ μ (s : Sink) (ready completed : Fifo PayBuf),
      ready.insertions - ready.removals = μ →
      ready.removals ≤ ready.insertions →
      FifoValid m2 completed →
      (sink_trade_loop txbuf s ready completed).s.txbuflen = s.txbuflen ∧
      (sink_trade_loop txbuf s ready completed).s.entirelen = s.entirelen ∧
      (sink_trade_loop txbuf s ready completed).s.idx =
        s.idx + (((sink_trade_loop txbuf s ready completed).moved).map PayBuf.nused).sum ∧
      FifoValid m2 (sink_trade_loop txbuf s ready completed).completed ∧
      fifo_pending (sink_trade_loop txbuf s ready completed).completed =
        fifo_pending completed ++ (sink_trade_loop txbuf s ready completed).moved ∧
      (sink_trade_loop txbuf s ready completed).completed.closed = completed.closed ∧
      sink_moved_ok txbuf s.txbuflen s.entirelen s.idx
        (sink_trade_loop txbuf s ready completed).moved = true ∧
      (sink_trade_loop txbuf s ready completed).ready.closed = ready.closed ∧
      (sink_trade_loop txbuf s ready completed).ready.removals ≤
        (sink_trade_loop txbuf s ready completed).ready.insertions ∧
      ((sink_trade_loop txbuf s ready completed).failed = true ↔
        ∃ h, fifo_peek (sink_trade_loop txbuf s ready completed).ready = some h ∧
          fifo_full (sink_trade_loop txbuf s ready completed).completed = false ∧
          (s.entirelen < h.nused + (sink_trade_loop txbuf s ready completed).s.idx ∨
            sink_buf_matches txbuf s.txbuflen
              (sink_trade_loop txbuf s ready completed).s.idx h = false)) ∧
      ((sink_trade_loop txbuf s ready completed).failed = false →
        fifo_peek (sink_trade_loop txbuf s ready completed).ready = none ∨
        fifo_full (sink_trade_loop txbuf s ready completed).completed = true) := by
  intro μ
  induction μ using Nat.strong_induction_on with
  | _ μ ih =>
    intro s ready completed hμ hv hvc
    rw [sink_trade_loop]
    split
    · rename_i hpk
      refine ⟨rfl, rfl, by simp, hvc, by simp [fifo_pending], rfl, rfl, rfl, hv, ?_, ?_⟩
      · constructor
        · intro hc
          exact absurd hc (by simp)
        · rintro ⟨h, hph, _⟩
          rw [hpk] at hph
          exact absurd hph (by simp)
      · intro _
        exact Or.inl hpk
    · rename_i h hpk
      by_cases hfull : fifo_full completed
      · rw [if_pos hfull]
        refine ⟨rfl, rfl, by simp, hvc, by simp [fifo_pending], rfl, rfl, rfl, hv, ?_, ?_⟩
        · constructor
          · intro hc
            exact absurd hc (by simp)
          · rintro ⟨h2, hph, hfc, _⟩
            rw [hfull] at hfc
            exact absurd hfc (by simp)
        · intro _
          exact Or.inr hfull
      · rw [if_neg hfull]
        by_cases hover : s.entirelen < h.nused + s.idx
        · rw [if_pos hover]
          refine ⟨rfl, rfl, by simp, hvc, by simp [fifo_pending], rfl, rfl, rfl, hv, ?_, ?_⟩
          · constructor
            · intro _
              refine ⟨h, hpk, by simpa using hfull, Or.inl (by simpa using hover)⟩
            · intro _
              rfl
          · intro hc
            exact absurd hc (by simp)
        · rw [if_neg hover]
          by_cases hmatch : sink_buf_matches txbuf s.txbuflen s.idx h = false
          · rw [if_pos hmatch]
            refine ⟨rfl, rfl, by simp, hvc, by simp [fifo_pending], rfl, rfl, rfl, hv, ?_, ?_⟩
            · constructor
              · intro _
                refine ⟨h, hpk, by simpa using hfull, Or.inr (by simpa using hmatch)⟩
              · intro _
                rfl
            · intro hc
              exact absurd hc (by simp)
          · rw [if_neg hmatch]
            obtain ⟨heo, hlt, hget⟩ := fifo_peek_some ready h hpk hv
            rw [dif_pos hlt]
            have hputp := fifo_put_pending m2 completed h hvc (by simpa using hfull)
            obtain ⟨hpok, hpend, hvc2, hclo, hmk⟩ := hputp
            have hrv2 : (fifo_get ready).2.removals ≤ (fifo_get ready).2.insertions := by
              rw [hget]
              show ready.removals + 1 ≤ ready.insertions
              omega
            have hμ2 : (fifo_get ready).2.insertions - (fifo_get ready).2.removals < μ := by
              have e1 : (fifo_get ready).2.removals = ready.removals + 1 := by rw [hget]
              have e2 : (fifo_get ready).2.insertions = ready.insertions := by rw [hget]
              omega
            have hrec := ih _ hμ2 { s with idx := s.idx + h.nused }
              (fifo_get ready).2 (fifo_put completed h).2 rfl hrv2 hvc2
            obtain ⟨r1, r2, r3, r4, r5, r6, r7, r8, r9, r10, r11⟩ := hrec
            have hcl2 : (fifo_get ready).2.closed = ready.closed := by rw [hget]
            refine ⟨r1, r2, ?_, r4, ?_, ?_, ?_, ?_, r9, ?_, r11⟩
            · show (sink_trade_loop txbuf _ _ _).s.idx =
                s.idx + (h.nused + ((sink_trade_loop txbuf _ _ _).moved.map PayBuf.nused).sum)
              rw [r3]
              show s.idx + h.nused + _ = _
              omega
            · show fifo_pending (sink_trade_loop txbuf _ _ _).completed =
                fifo_pending completed ++ (h :: (sink_trade_loop txbuf _ _ _).moved)
              rw [r5, hpend]
              simp
            · show (sink_trade_loop txbuf _ _ _).completed.closed = completed.closed
              rw [r6, hclo]
            · show (decide (h.nused + s.idx ≤ s.entirelen) &&
                sink_buf_matches txbuf s.txbuflen s.idx h &&
                sink_moved_ok txbuf s.txbuflen s.entirelen (s.idx + h.nused)
                  (sink_trade_loop txbuf _ _ _).moved) = true
              have hm : sink_buf_matches txbuf s.txbuflen s.idx h = true := by
                cases hq : sink_buf_matches txbuf s.txbuflen s.idx h
                · exact absurd hq hmatch
                · rfl
              rw [hm]
              have hd : decide (h.nused + s.idx ≤ s.entirelen) = true := by
                simp only [decide_eq_true_eq]
                omega
              rw [hd]
              simpa using r7
            · show (sink_trade_loop txbuf _ _ _).ready.closed = ready.closed
              rw [r8, hcl2]
            · show ((sink_trade_loop txbuf _ _ _).failed = true ↔ _)
              rw [r10]

theorem fifo_get_close_eoget {α : Type} (f : Fifo α) :
    fifo_eoget (fifo_get_close f) = true := by
  unfold fifo_get_close
  split
  · assumption
  · show decide (f.removals ≤ f.removals) = true
    simp

/-- Result of `sink_trade` with the ghost `moved` trace. -/
structure SinkTradeOut where
  control : LoopControl
  s : Sink
  ready : Fifo PayBuf
  completed : Fifo PayBuf
  moved : List PayBuf

/-- Model of `sink_trade`: on a get-closed `ready` return `loop_end` (or
`loop_error` if items remain); otherwise run the verification loop, then
return `loop_error` on a failed verification, `loop_continue` while the byte
budget is not exhausted, and close `ready`'s removal side and return
`loop_end` once `idx == entirelen`. -/
def sink_trade (txbuf : List Nat) (s : Sink)
    (ready completed : Fifo PayBuf) : SinkTradeOut :=
  if fifo_eoget ready then
    if fifo_alt_empty ready = false then ⟨.loop_error, s, ready, completed, []⟩
    else ⟨.loop_end, s, ready, completed, []⟩
  else
    let out := sink_trade_loop txbuf s ready completed
    if out.failed then ⟨.loop_error, out.s, out.ready, out.completed, out.moved⟩
    else if out.s.idx ≠ out.s.entirelen then
      ⟨.loop_continue, out.s, out.ready, out.completed, out.moved⟩
    else ⟨.loop_end, out.s, fifo_get_close out.ready, out.completed, out.moved⟩

/-- Claim C8.  For every sink state with `entirelen = txbuflen * 100000`
(as `sink_init` sets up) and valid FIFOs, `sink_trade` returns `loop_error`
exactly when a buffer the loop reaches would overrun
(`idx + nused > entirelen`) or its payload differs from the reference text
repeated cyclically at the running offset, or `ready` is get-closed while
still holding items; every verified buffer is moved to `completed` (in
order) and advances `idx` by its `nused`; and when `idx` reaches
`entirelen` the sink closes the removal side of `ready` and returns
`loop_end`. -/
theorem C8_sink_trade_correct (txbuf : List Nat) (m1 m2 : Nat) (s : Sink)
    (ready completed : Fifo PayBuf)
    (hvr : FifoValid m1 ready) (hvc : FifoValid m2 completed)
    (hent : s.entirelen = s.txbuflen * 100000) :
    ((sink_trade txbuf s ready completed).control = .loop_error ↔
      (fifo_eoget ready = true ∧ fifo_alt_empty ready = false) ∨
      (fifo_eoget ready = false ∧
        ∃ h, fifo_peek (sink_trade txbuf s ready completed).ready = some h ∧
          fifo_full (sink_trade txbuf s ready completed).completed = false ∧
          (s.entirelen < h.nused + (sink_trade txbuf s ready completed).s.idx ∨
            sink_buf_matches txbuf s.txbuflen
              (sink_trade txbuf s ready completed).s.idx h = false))) ∧
    (sink_trade txbuf s ready completed).s.idx =
      s.idx + (((sink_trade txbuf s ready completed).moved).map PayBuf.nused).sum ∧
    (sink_trade txbuf s ready completed).s.entirelen = s.entirelen ∧
    (sink_trade txbuf s ready completed).s.txbuflen = s.txbuflen ∧
    fifo_pending (sink_trade txbuf s ready completed).completed =
      fifo_pending completed ++ (sink_trade txbuf s ready completed).moved ∧
    sink_moved_ok txbuf s.txbuflen s.entirelen s.idx
      (sink_trade txbuf s ready completed).moved = true ∧
    ((sink_trade txbuf s ready completed).control = .loop_end →
      fifo_eoget (sink_trade txbuf s ready completed).ready = true ∧
      (fifo_eoget ready = false →
        (sink_trade txbuf s ready completed).s.idx = s.entirelen)) ∧
    (fifo_eoget ready = false →
      (sink_trade txbuf s ready completed).control ≠ .loop_error →
      (sink_trade txbuf s ready completed).s.idx = s.entirelen →
      (sink_trade txbuf s ready completed).control = .loop_end) := by
  by_cases heo : fifo_eoget ready = true
  · by_cases hne : fifo_alt_empty ready = false
    · have hT : sink_trade txbuf s ready completed =
          ⟨.loop_error, s, ready, completed, []⟩ := by
        unfold sink_trade
        rw [if_pos heo, if_pos hne]
      rw [hT]
      refine ⟨?_, by simp, rfl, rfl, by simp [fifo_pending], rfl, ?_, ?_⟩
      · exact ⟨fun _ => Or.inl ⟨heo, hne⟩, fun _ => rfl⟩
      · intro hc
        exact absurd hc (by simp)
      · intro hc
        rw [heo] at hc
        exact absurd hc (by simp)
    · have hae : fifo_alt_empty ready = true := by
        cases hq : fifo_alt_empty ready
        · exact absurd hq hne
        · rfl
      have hT : sink_trade txbuf s ready completed =
          ⟨.loop_end, s, ready, completed, []⟩ := by
        unfold sink_trade
        rw [if_pos heo, if_neg (by rw [hae]; simp)]
      rw [hT]
      refine ⟨?_, by simp, rfl, rfl, by simp [fifo_pending], rfl, ?_, ?_⟩
      · constructor
        · intro hc
          exact absurd hc (by simp)
        · rintro (⟨_, hc⟩ | ⟨hc, _⟩)
          · exact absurd hae (by rw [hc]; simp)
          · rw [heo] at hc
            exact absurd hc (by simp)
      · intro _
        exact ⟨heo, fun hc => by rw [heo] at hc; exact absurd hc (by simp)⟩
      · intro hc
        rw [heo] at hc
        exact absurd hc (by simp)
  · have heo2 : fifo_eoget ready = false := by
      cases hq : fifo_eoget ready
      · rfl
      · exact absurd hq heo
    have hrec := sink_trade_loop_spec txbuf m2 (ready.insertions - ready.removals)
      s ready completed rfl hvr.2.1 hvc
    obtain ⟨r1, r2, r3, r4, r5, r6, r7, r8, r9, r10, r11⟩ := hrec
    by_cases hf : (sink_trade_loop txbuf s ready completed).failed = true
    · have hT : sink_trade txbuf s ready completed =
          ⟨.loop_error, (sink_trade_loop txbuf s ready completed).s,
           (sink_trade_loop txbuf s ready completed).ready,
           (sink_trade_loop txbuf s ready completed).completed,
           (sink_trade_loop txbuf s ready completed).moved⟩ := by
        unfold sink_trade
        rw [if_neg (by rw [heo2]; simp)]
        dsimp only
        rw [if_pos hf]
      rw [hT]
      refine ⟨?_, r3, r2, r1, r5, r7, ?_, ?_⟩
      · constructor
        · intro _
          exact Or.inr ⟨heo2, r10.mp hf⟩
        · intro _
          rfl
      · intro hc
        exact absurd hc (by simp)
      · intro _ hc
        exact absurd rfl hc
    · have hf2 : (sink_trade_loop txbuf s ready completed).failed = false := by
        cases hq : (sink_trade_loop txbuf s ready completed).failed
        · rfl
        · exact absurd hq hf
      by_cases hix : (sink_trade_loop txbuf s ready completed).s.idx =
          (sink_trade_loop txbuf s ready completed).s.entirelen
      · have hT : sink_trade txbuf s ready completed =
            ⟨.loop_end, (sink_trade_loop txbuf s ready completed).s,
             fifo_get_close (sink_trade_loop txbuf s ready completed).ready,
             (sink_trade_loop txbuf s ready completed).completed,
             (sink_trade_loop txbuf s ready completed).moved⟩ := by
          unfold sink_trade
          rw [if_neg (by rw [heo2]; simp)]
          dsimp only
          rw [if_neg (by rw [hf2]; simp), if_neg (by simpa using hix)]
        rw [hT]
        refine ⟨?_, r3, r2, r1, r5, r7, ?_, ?_⟩
        · constructor
          · intro hc
            exact absurd hc (by simp)
          · rintro (⟨hc, _⟩ | ⟨_, h2, hp2, _⟩)
            · rw [heo2] at hc
              exact absurd hc (by simp)
            · show LoopControl.loop_end = .loop_error
              exfalso
              have : fifo_empty (fifo_get_close
                  (sink_trade_loop txbuf s ready completed).ready) = true := by
                unfold fifo_empty
                rw [fifo_get_close_eoget]
                simp
              unfold fifo_peek at hp2
              rw [if_pos this] at hp2
              exact absurd hp2 (by simp)
        · intro _
          refine ⟨fifo_get_close_eoget _, fun _ => ?_⟩
          rw [hix, r2]
        · intro _ _ _
          rfl
      · have hT : sink_trade txbuf s ready completed =
            ⟨.loop_continue, (sink_trade_loop txbuf s ready completed).s,
             (sink_trade_loop txbuf s ready completed).ready,
             (sink_trade_loop txbuf s ready completed).completed,
             (sink_trade_loop txbuf s ready completed).moved⟩ := by
          unfold sink_trade
          rw [if_neg (by rw [heo2]; simp)]
          dsimp only
          rw [if_neg (by rw [hf2]; simp), if_pos (by simpa using hix)]
        rw [hT]
        refine ⟨?_, r3, r2, r1, r5, r7, ?_, ?_⟩
        · constructor
          · intro hc
            exact absurd hc (by simp)
          · rintro (⟨hc, _⟩ | ⟨_, hex⟩)
            · rw [heo2] at hc
              exact absurd hc (by simp)
            · show LoopControl.loop_continue = .loop_error
              exfalso
              have := r10.mpr hex
              rw [hf2] at this
              exact absurd this (by simp)
        · intro hc
          exact absurd hc (by simp)
        · intro _ _ hc
          rw [r2] at hix
          exact absurd hc hix

/-- Concrete instantiation of `C8_sink_trade_correct`: reference text of
three bytes, sink two bytes short of `entirelen = 300000`, one matching
two-byte buffer pending.  The moved-buffer accounting and the per-buffer
verification conditions are discharged by the claim theorem. -/
theorem C8_sink_trade_witness :
    (sink_trade [1, 2, 3] ⟨299998, 3, 300000⟩
        (fifo_put (fifo_create PayBuf 4) ⟨2, [2, 3]⟩).2 (fifo_create PayBuf 4)).s.idx =
      299998 +
        (((sink_trade [1, 2, 3] ⟨299998, 3, 300000⟩
            (fifo_put (fifo_create PayBuf 4) ⟨2, [2, 3]⟩).2
            (fifo_create PayBuf 4)).moved).map PayBuf.nused).sum ∧
    sink_moved_ok [1, 2, 3] 3 300000 299998
      (sink_trade [1, 2, 3] ⟨299998, 3, 300000⟩
        (fifo_put (fifo_create PayBuf 4) ⟨2, [2, 3]⟩).2
        (fifo_create PayBuf 4)).moved = true ∧
    fifo_pending (sink_trade [1, 2, 3] ⟨299998, 3, 300000⟩
        (fifo_put (fifo_create PayBuf 4) ⟨2, [2, 3]⟩).2
        (fifo_create PayBuf 4)).completed =
      fifo_pending (fifo_create PayBuf 4) ++
        (sink_trade [1, 2, 3] ⟨299998, 3, 300000⟩
          (fifo_put (fifo_create PayBuf 4) ⟨2, [2, 3]⟩).2
          (fifo_create PayBuf 4)).moved := by
  have h := C8_sink_trade_correct [1, 2, 3] 2 2 ⟨299998, 3, 300000⟩
    (fifo_put (fifo_create PayBuf 4) ⟨2, [2, 3]⟩).2 (fifo_create PayBuf 4)
    (by refine ⟨?_, ?_, ?_⟩ <;> decide)
    (by refine ⟨?_, ?_, ?_⟩ <;> decide)
    (by decide)
  exact ⟨h.2.1, h.2.2.2.2.2.1, h.2.2.2.2.1⟩

/-!
## Claim C7: `rxctl_complete` and the cancellation path of its caller

`rxctl` receive buffers are modelled at the type the claim's caller uses
(progress buffers, `progbuf_t`); the identity of the embedded `fi_context`
(its address, by which `cmpl->xfc != &h->xfc` compares) is the `ctxid`
field.
-/

/-- Transfer-context fields relevant to receive completion
(`xfer_context_t`): context identity and the `cancelled` bit. -/
structure XferContext where
  ctxid : Nat
  cancelled : Bool
deriving DecidableEq, Repr

/-- Progress message payload (`progress_msg_t`). -/
structure ProgressMsg where
  nfilled : Nat
  nleftover : Nat
deriving DecidableEq, Repr

/-- A posted receive buffer (`progbuf_t` view: `bufhdr_t` fields plus the
message payload). -/
structure RxBuf where
  xfc : XferContext
  nused : Nat
  nallocated : Nat
  msg : ProgressMsg
deriving DecidableEq, Repr

instance : Inhabited RxBuf := ⟨⟨⟨0, false⟩, 0, 0, ⟨0, 0⟩⟩⟩

/-- A completion (`completion_t`): `rx_flags_ok` stands for
`(cmpl->flags & desired_rx_flags) == desired_rx_flags`, `len` is the
completion length, and `xfc` is the transfer context the completion points
at. -/
structure Completion where
  rx_flags_ok : Bool
  len : Nat
  xfc : XferContext
deriving DecidableEq, Repr

/-- Result of `rxctl_complete`: a returned buffer with the updated `posted`
FIFO, the literal `NULL` return (dead code in the C source — it directly
follows an `errx` call), or a fatal `errx(EXIT_FAILURE, ...)` abort. -/
inductive RxctlResult
  | buf (b : RxBuf) (posted : Fifo RxBuf)
  | null
  | fatal

/-- The buffer returned by an `RxctlResult`, if any. -/
def RxctlResult.returnedBuf : RxctlResult → Option RxBuf
  | .buf b _ => some b
  | .null => none
  | .fatal => none

/-- Model of `rxctl_complete`: abort on unexpected flags unless the context
is cancelled; pop the head of `posted` (aborting if none was posted — the
`return NULL` after that `errx` never runs); abort if the completion's
context is not the head buffer's; record `nused = cmpl->len` and return the
buffer.  There is no cancellation branch: a cancelled buffer is returned
like any other. -/
def rxctl_complete (posted : Fifo RxBuf) (cmpl : Completion) : RxctlResult :=
  if !cmpl.rx_flags_ok && !cmpl.xfc.cancelled then .fatal
  else
    match fifo_get posted with
    | (none, _) => .fatal
    | (some h, posted2) =>
      if cmpl.xfc.ctxid ≠ h.xfc.ctxid then .fatal
      else .buf { h with nused := cmpl.len } posted2

/-- Value of `sizeof(progress_msg_t)`: two `uint64_t` fields. -/
def progress_msg_size : Nat := 16

/-- Model of `progbuf_is_wellformed`. -/
def progbuf_is_wellformed (pb : RxBuf) : Bool := pb.nused == progress_msg_size

/-- Model of `rxctl_post`: clear the buffer's cancelled bit and enqueue it
on `posted` (the `fi_recvmsg` call itself is external). -/
def rxctl_post (posted : Fifo RxBuf) (h : RxBuf) : Fifo RxBuf :=
  (fifo_put posted { h with xfc := { h.xfc with cancelled := false } }).2

/-- Outcome of `rcvr_progress_rx_process` (which path the code took). -/
inductive ProgRxOutcome
  | complete_fatal
  | returned_null
  | cancelled_freed
  | malformed_reposted
  | accepted
deriving DecidableEq, Repr

/-- Receiver state read and written by `rcvr_progress_rx_process`. -/
structure RcvrProgressState where
  posted : Fifo RxBuf
  nfull : Nat
  eof_remote : Bool

/-- Model of `rcvr_progress_rx_process`: reconcile the completion via
`rxctl_complete`; free a cancelled buffer (it is not re-posted and leaves
the receive ring); repost a malformed one; otherwise accumulate
`nfull += nfilled`, record remote EOF on `nleftover == 0`, and repost. -/
def rcvr_progress_rx_process (r : RcvrProgressState) (cmpl : Completion) :
    RcvrProgressState × Int × ProgRxOutcome :=
  match rxctl_complete r.posted cmpl with
  | .fatal => (r, -1, .complete_fatal)
  | .null => (r, -1, .returned_null)
  | .buf pb posted2 =>
    if pb.xfc.cancelled then
      ({ r with posted := posted2 }, 0, .cancelled_freed)
    else if progbuf_is_wellformed pb = false then
      ({ r with posted := rxctl_post posted2 pb }, 0, .malformed_reposted)
    else
      ({ posted := rxctl_post posted2 pb
         nfull := r.nfull + pb.msg.nfilled
         eof_remote := if pb.msg.nleftover = 0 then true else r.eof_remote },
       1, .accepted)

/-- Counterexample to claim C7 as stated.  At a concrete cancelled
completion whose context matches the posted head buffer, `rxctl_complete`
does not return NULL: it returns the buffer (with `nused` recorded), and
the cancellation is handled by the caller instead. -/
theorem C7_rxctl_complete_counterexample :
    (⟨false, 16, ⟨7, true⟩⟩ : Completion).xfc.cancelled = true ∧
    (rxctl_complete (fifo_put (fifo_create RxBuf 4) ⟨⟨7, true⟩, 0, 32, ⟨5, 1⟩⟩).2
        ⟨false, 16, ⟨7, true⟩⟩).returnedBuf =
      some ⟨⟨7, true⟩, 16, 32, ⟨5, 1⟩⟩ ∧
    (rxctl_complete (fifo_put (fifo_create RxBuf 4) ⟨⟨7, true⟩, 0, 32, ⟨5, 1⟩⟩).2
        ⟨false, 16, ⟨7, true⟩⟩).returnedBuf ≠ none := by
  refine ⟨rfl, by decide, by decide⟩

/-- Claim C7, amended.  For every completion whose context matches the head
of `posted` (and whose flags are the expected receive flags unless the
operation was cancelled), `rxctl_complete` pops the head buffer, records
`nused = completion.len`, and returns the buffer — including when the
operation was cancelled; in the cancelled case the caller
(`rcvr_progress_rx_process`) frees the returned buffer: it drops it from
the receive ring without re-posting it, and changes no other state. -/
theorem C7_rxctl_complete_amended (r : RcvrProgressState) (cmpl : Completion)
    (h : RxBuf)
    (hget : (fifo_get r.posted).1 = some h)
    (hctx : cmpl.xfc.ctxid = h.xfc.ctxid)
    (hflags : cmpl.rx_flags_ok = true ∨ cmpl.xfc.cancelled = true) :
    rxctl_complete r.posted cmpl =
      .buf { h with nused := cmpl.len } (fifo_get r.posted).2 ∧
    (h.xfc.cancelled = true →
      rcvr_progress_rx_process r cmpl =
        ({ r with posted := (fifo_get r.posted).2 }, 0, .cancelled_freed)) := by
  have hguard : (!cmpl.rx_flags_ok && !cmpl.xfc.cancelled) = false := by
    rcases hflags with hf | hc
    · rw [hf]
      simp
    · rw [hc]
      simp
  have hcore : rxctl_complete r.posted cmpl =
      .buf { h with nused := cmpl.len } (fifo_get r.posted).2 := by
    unfold rxctl_complete
    rw [hguard]
    rw [if_neg (by simp : ¬ ((false : Bool) = true))]
    rcases hfg : fifo_get r.posted with ⟨o, p2⟩
    rw [hfg] at hget
    simp only at hget
    rw [hget]
    dsimp only
    rw [if_neg (show ¬ (cmpl.xfc.ctxid ≠ h.xfc.ctxid) from fun hc => hc hctx)]
  refine ⟨hcore, ?_⟩
  intro hcanc
  unfold rcvr_progress_rx_process
  rw [hcore]
  dsimp only
  have hpbc : ({ h with nused := cmpl.len } : RxBuf).xfc.cancelled = true := hcanc
  rw [if_pos hpbc]

/-- Concrete instantiation of `C7_rxctl_complete_amended`, discharging its
hypotheses at a cancelled completion: the buffer is returned (not NULL) and
the caller frees it, leaving `nfull` and `eof_remote` untouched. -/
theorem C7_rxctl_complete_amended_witness :
    rxctl_complete
        (⟨(fifo_put (fifo_create RxBuf 4) ⟨⟨7, true⟩, 0, 32, ⟨5, 1⟩⟩).2, 3, false⟩ :
          RcvrProgressState).posted ⟨false, 16, ⟨7, true⟩⟩ =
      .buf ⟨⟨7, true⟩, 16, 32, ⟨5, 1⟩⟩
        (fifo_get (fifo_put (fifo_create RxBuf 4) ⟨⟨7, true⟩, 0, 32, ⟨5, 1⟩⟩).2).2 ∧
    rcvr_progress_rx_process
        ⟨(fifo_put (fifo_create RxBuf 4) ⟨⟨7, true⟩, 0, 32, ⟨5, 1⟩⟩).2, 3, false⟩
        ⟨false, 16, ⟨7, true⟩⟩ =
      (⟨(fifo_get (fifo_put (fifo_create RxBuf 4) ⟨⟨7, true⟩, 0, 32, ⟨5, 1⟩⟩).2).2,
        3, false⟩, 0, .cancelled_freed) := by
  have h := C7_rxctl_complete_amended
    ⟨(fifo_put (fifo_create RxBuf 4) ⟨⟨7, true⟩, 0, 32, ⟨5, 1⟩⟩).2, 3, false⟩
    ⟨false, 16, ⟨7, true⟩⟩ ⟨⟨7, true⟩, 0, 32, ⟨5, 1⟩⟩
    (by decide) (by decide) (Or.inr (by decide))
  exact ⟨h.1, h.2 (by decide)⟩

/-!
## Claim C2: `xmtr_progress_update` and the local-EOF progress message
-/

/-- Progress transmit buffer (`progbuf_t` as the transmitter fills it). -/
structure ProgBuf where
  owner_nic : Bool
  nused : Nat
  nallocated : Nat
  msg : ProgressMsg
deriving DecidableEq, Repr

instance : Inhabited ProgBuf := ⟨⟨false, 0, 0, ⟨0, 0⟩⟩⟩

/-- Model of `buflist_get`: pop the top of the free-buffer stack
(`bl->buf[--bl->nfull]`; the list head is the stack top). -/
def buflist_get {α : Type} : List α → Option (α × List α)
  | [] => none
  | h :: t => some (h, t)

/-- The transmitter state read and written by `xmtr_progress_update`:
the session's `ready_for_cxn` FIFO, the posted-writes FIFO (only its
emptiness is read here), the progress byte counter, the local-EOF flag, and
the progress `txctl` (ready queue and free pool). -/
structure XmtrProgress where
  ready_for_cxn : Fifo PayBuf
  wrposted : Fifo Nat
  bytes_progress : Nat
  eof_local : Bool
  progress_ready : Fifo ProgBuf
  progress_pool : List ProgBuf

/-- The `reached_eof` local of `xmtr_progress_update`: the terminal reached
EOF (`ready_for_cxn` is get-closed), all pending writes drained (`wrposted`
empty), and `nleftover == 0` not previously sent. -/
def xmtr_reached_eof (x : XmtrProgress) : Bool :=
  fifo_eoget x.ready_for_cxn && fifo_empty x.wrposted && !x.eof_local

/-- Model of `xmtr_progress_update`; the second component is a ghost copy
of the progress message composed and enqueued this step, if any. -/
def xmtr_progress_update (x : XmtrProgress) : XmtrProgress × Option ProgressMsg :=
  if x.bytes_progress == 0 && !(xmtr_reached_eof x) then (x, none)
  else if fifo_full x.progress_ready then (x, none)
  else
    match buflist_get x.progress_pool with
    | none => (x, none)
    | some (pb, pool2) =>
      ({ x with
         bytes_progress := 0
         progress_pool := pool2
         progress_ready := (fifo_put x.progress_ready
           { pb with
             owner_nic := true
             nused := pb.nallocated
             msg := { nfilled := x.bytes_progress
                      nleftover := if xmtr_reached_eof x then 0 else 1 } }).2
         eof_local := if xmtr_reached_eof x then true else x.eof_local },
       some { nfilled := x.bytes_progress
              nleftover := if xmtr_reached_eof x then 0 else 1 })

theorem xmtr_reached_eof_split (z : XmtrProgress)
    (h : xmtr_reached_eof z = true) :
    fifo_eoget z.ready_for_cxn = true ∧ fifo_empty z.wrposted = true ∧
    z.eof_local = false := by
  unfold xmtr_reached_eof at h
  refine ⟨?_, ?_, ?_⟩
  · cases hq : fifo_eoget z.ready_for_cxn
    · rw [hq] at h
      simp at h
    · rfl
  · cases hq : fifo_empty z.wrposted
    · rw [hq] at h
      simp at h
    · rfl
  · cases hq : z.eof_local
    · rfl
    · rw [hq] at h
      simp at h

theorem xmtr_progress_update_eof_step (z : XmtrProgress) (m : ProgressMsg)
    (hm : (xmtr_progress_update z).2 = some m) (h0 : m.nleftover = 0) :
    fifo_eoget z.ready_for_cxn = true ∧ fifo_empty z.wrposted = true ∧
    z.eof_local = false ∧ (xmtr_progress_update z).1.eof_local = true := by
  unfold xmtr_progress_update at hm ⊢
  split at hm
  · exact absurd hm (by simp)
  · rename_i hg1
    split at hm
    · exact absurd hm (by simp)
    · rename_i hg2
      split at hm
      · exact absurd hm (by simp)
      · rename_i pb pool2 hpool
        simp only [Option.some.injEq] at hm
        rw [if_neg hg1, if_neg hg2]
        by_cases hre : xmtr_reached_eof z = true
        · obtain ⟨h1, h2, h3⟩ := xmtr_reached_eof_split z hre
          refine ⟨h1, h2, h3, ?_⟩
          show (if xmtr_reached_eof z = true then true else z.eof_local) = true
          rw [if_pos hre]
        · exfalso
          apply absurd h0
          rw [← hm]
          have hre2 : xmtr_reached_eof z = false := by
            cases hq : xmtr_reached_eof z
            · rfl
            · exact absurd hq hre
          show (if xmtr_reached_eof z = true then 0 else 1) ≠ 0
          rw [hre2]
          simp

theorem xmtr_progress_update_none (z : XmtrProgress)
    (hm : (xmtr_progress_update z).2 = none) :
    (xmtr_progress_update z).1 = z := by
  unfold xmtr_progress_update at hm ⊢
  split at hm
  · rename_i hg1
    rw [if_pos hg1]
  · rename_i hg1
    split at hm
    · rename_i hg2
      rw [if_neg hg1, if_pos hg2]
    · rename_i hg2
      split at hm
      · rename_i hpool
        rw [if_neg hg1, if_neg hg2]
      · exact absurd hm (by simp)

theorem xmtr_progress_update_non_eof (z : XmtrProgress) (m : ProgressMsg)
    (hm : (xmtr_progress_update z).2 = some m) (h0 : m.nleftover ≠ 0) :
    (xmtr_progress_update z).1.eof_local = z.eof_local := by
  unfold xmtr_progress_update at hm ⊢
  split at hm
  · exact absurd hm (by simp)
  · rename_i hg1
    split at hm
    · exact absurd hm (by simp)
    · rename_i hg2
      split at hm
      · exact absurd hm (by simp)
      · rename_i pb pool2 hpool
        simp only [Option.some.injEq] at hm
        rw [if_neg hg1, if_neg hg2]
        by_cases hre : xmtr_reached_eof z = true
        · exfalso
          apply h0
          rw [← hm]
          show (if xmtr_reached_eof z = true then 0 else 1) = 0
          rw [if_pos hre]
        · have hre2 : xmtr_reached_eof z = false := by
            cases hq : xmtr_reached_eof z
            · rfl
            · exact absurd hq hre
          show (if xmtr_reached_eof z = true then true else z.eof_local) = z.eof_local
          rw [hre2]
          simp

/-- Interleavings of `xmtr_progress_update` steps with arbitrary other
transmitter activity.  The environment step may change anything except
clearing `eof.local`: nothing in `fget.c` resets `cxn.eof.local` to false
after `cxn_init`.  `ms` collects the progress messages the update steps
composed, in order. -/
inductive XmtrProgressReach : XmtrProgress → List ProgressMsg → XmtrProgress → Prop
  | refl (x : XmtrProgress) : XmtrProgressReach x [] x
  | update (x : XmtrProgress) (ms : List ProgressMsg) (y : XmtrProgress) :
      XmtrProgressReach x ms y →
      XmtrProgressReach x (ms ++ ((xmtr_progress_update y).2).toList)
        (xmtr_progress_update y).1
  | env (x : XmtrProgress) (ms : List ProgressMsg) (y z : XmtrProgress) :
      XmtrProgressReach x ms y →
      (y.eof_local = true → z.eof_local = true) →
      XmtrProgressReach x ms z

theorem xmtr_progress_reach_count (x : XmtrProgress) (ms : List ProgressMsg)
    (y : XmtrProgress) (hreach : XmtrProgressReach x ms y)
    (hinit : x.eof_local = false) :
    (ms.filter (fun m => m.nleftover == 0)).length ≤ 1 ∧
    (y.eof_local = false → (ms.filter (fun m => m.nleftover == 0)).length = 0) := by
  induction hreach with
  | refl => exact ⟨by simp, by simp⟩
  | update ms y hr ih =>
    obtain ⟨ih1, ih2⟩ := ih
    cases hm : (xmtr_progress_update y).2 with
    | none =>
      have heq := xmtr_progress_update_none y hm
      simp only [Option.toList_none, List.append_nil]
      exact ⟨ih1, fun hf => ih2 (by rw [heq] at hf; exact hf)⟩
    | some m =>
      simp only [Option.toList_some, List.filter_append, List.length_append]
      by_cases h0 : m.nleftover = 0
      · obtain ⟨h1, h2, h3, h4⟩ := xmtr_progress_update_eof_step y m hm h0
        have hc0 : (ms.filter (fun m => m.nleftover == 0)).length = 0 := ih2 h3
        have hc1 : ([m].filter (fun m => m.nleftover == 0)).length = 1 := by
          simp [h0]
        rw [hc0, hc1]
        exact ⟨le_refl _, fun hf => absurd h4 (by rw [hf]; simp)⟩
      · have heq := xmtr_progress_update_non_eof y m hm h0
        have hc1 : ([m].filter (fun m => m.nleftover == 0)).length = 0 := by
          simp [h0]
        rw [hc1]
        refine ⟨by omega, fun hf => ?_⟩
        rw [heq] at hf
        have := ih2 hf
        omega
  | env ms y z hr hmono ih =>
    obtain ⟨ih1, ih2⟩ := ih
    refine ⟨ih1, fun hz => ih2 ?_⟩
    cases hq : y.eof_local
    · rfl
    · exact absurd (hmono hq) (by rw [hz]; simp)

/-- Claim C2.  A progress message with `nleftover == 0` (local EOF) is
composed only when the `ready_for_cxn` FIFO is get-closed, `wrposted` is
empty and `eof.local` is still false, and `eof.local` is set to true in the
same step; consequently, along any interleaving of `xmtr_progress_update`
steps with transmitter activity that never clears `eof.local`, at most one
EOF progress message is ever composed (and none while `eof.local` is still
false), so a second EOF progress message is never produced. -/
theorem C2_xmtr_progress_eof_once (x : XmtrProgress) (ms : List ProgressMsg)
    (y : XmtrProgress) (hreach : XmtrProgressReach x ms y)
    (hinit : x.eof_local = false) :
    (∀ z m, (xmtr_progress_update z).2 = some m → m.nleftover = 0 →
      fifo_eoget z.ready_for_cxn = true ∧ fifo_empty z.wrposted = true ∧
      z.eof_local = false ∧ (xmtr_progress_update z).1.eof_local = true) ∧
    (ms.filter (fun m => m.nleftover == 0)).length ≤ 1 ∧
    (y.eof_local = false → (ms.filter (fun m => m.nleftover == 0)).length = 0) := by
  refine ⟨xmtr_progress_update_eof_step, ?_, ?_⟩
  · exact (xmtr_progress_reach_count x ms y hreach hinit).1
  · exact (xmtr_progress_reach_count x ms y hreach hinit).2

/-- Concrete instantiation of `C2_xmtr_progress_eof_once`: one update step
from a state at EOF (get-closed `ready_for_cxn`, empty `wrposted`, no EOF
sent yet) composes the single EOF message and flips `eof.local`. -/
theorem C2_xmtr_progress_eof_once_witness :
    ((xmtr_progress_update
        ⟨fifo_get_close (fifo_create PayBuf 4), fifo_create Nat 4, 0, false,
         fifo_create ProgBuf 4, [⟨false, 0, 16, ⟨0, 0⟩⟩]⟩).2 =
      some ⟨0, 0⟩) ∧
    (xmtr_progress_update
        ⟨fifo_get_close (fifo_create PayBuf 4), fifo_create Nat 4, 0, false,
         fifo_create ProgBuf 4, [⟨false, 0, 16, ⟨0, 0⟩⟩]⟩).1.eof_local = true ∧
    ((([(⟨0, 0⟩ : ProgressMsg)]).filter (fun m => m.nleftover == 0)).length ≤ 1) := by
  have hstep := C2_xmtr_progress_eof_once
    ⟨fifo_get_close (fifo_create PayBuf 4), fifo_create Nat 4, 0, false,
     fifo_create ProgBuf 4, [⟨false, 0, 16, ⟨0, 0⟩⟩]⟩
    ([] ++ ((xmtr_progress_update
        ⟨fifo_get_close (fifo_create PayBuf 4), fifo_create Nat 4, 0, false,
         fifo_create ProgBuf 4, [⟨false, 0, 16, ⟨0, 0⟩⟩]⟩).2).toList)
    (xmtr_progress_update
        ⟨fifo_get_close (fifo_create PayBuf 4), fifo_create Nat 4, 0, false,
         fifo_create ProgBuf 4, [⟨false, 0, 16, ⟨0, 0⟩⟩]⟩).1
    (XmtrProgressReach.update _ [] _ (XmtrProgressReach.refl _)) rfl
  refine ⟨by decide, ?_, by decide⟩
  exact (hstep.1 _ ⟨0, 0⟩ (by decide) rfl).2.2.2

/-!
## Claim C3: receiver vector/ack wire-contract invariants
-/

/-- Receiver-side RDMA target buffer as `rcvr_vector_update` handles it:
fill level, capacity, and the registration key advertised in vector
entries (`fi_mr_key(h->mr)`). -/
structure TgtBuf where
  nused : Nat
  nallocated : Nat
  key : Nat
deriving DecidableEq, Repr

instance : Inhabited TgtBuf := ⟨⟨0, 0, 0⟩⟩

/-- One `{addr, len, key}` triple of a vector message. -/
structure VecEntry where
  addr : Nat
  len : Nat
  key : Nat
deriving DecidableEq, Repr

/-- A vector message (`vector_msg_t`): declared count and entries. -/
structure VecMsg where
  niovs : Nat
  iov : List VecEntry
deriving DecidableEq, Repr

/-- A vector transmit buffer (`vecbuf_t`). -/
structure VecBuf where
  nused : Nat
  msg : VecMsg
deriving DecidableEq, Repr

instance : Inhabited VecBuf := ⟨⟨0, ⟨0, []⟩⟩⟩

/-- Receiver state read and written by `rcvr_vector_update`. -/
structure RcvrVec where
  eof_local : Bool
  eof_remote : Bool
  ready_for_cxn : Fifo TgtBuf
  tgtposted : Fifo TgtBuf
  vec_ready : Fifo VecBuf
  vec_pool : List VecBuf

/-- Inner `for` loop of `rcvr_vector_update`: take up to 12 empty payload
buffers off `ready_for_cxn` (resetting `nused`), append them to `tgtposted`,
and record one `{0, nallocated, key}` entry each.  `fuel` is the remaining
iteration budget `12 - i`. -/
def rcvr_vector_gather (fuel : Nat) (ready tgt : Fifo TgtBuf)
    (entries : List VecEntry) : Fifo TgtBuf × Fifo TgtBuf × List VecEntry :=
  match fuel with
  | 0 => (ready, tgt, entries)
  | fu + 1 =>
    match fifo_get ready with
    | (none, ready2) => (ready2, tgt, entries)
    | (some h, ready2) =>
      rcvr_vector_gather fu ready2 (fifo_put tgt { h with nused := 0 }).2
        (entries ++ [{ addr := 0, len := h.nallocated, key := h.key }])

/-- Result of the outer `while` loop of `rcvr_vector_update`; `emitted` is
a ghost trace of the vector messages enqueued on `vec.ready`. -/
structure RcvrVecWhileOut where
  ready : Fifo TgtBuf
  tgt : Fifo TgtBuf
  vready : Fifo VecBuf
  pool : List VecBuf
  emitted : List VecMsg

/-- Outer `while` loop of `rcvr_vector_update`: while `vec.ready` has room,
`ready_for_cxn` is non-empty and the pool yields a vecbuf, gather a batch
and enqueue the vector message describing it
(`niovs = i`, `nused = offsetof(iov) + i * sizeof(entry)`). -/
def rcvr_vector_while (ready tgt : Fifo TgtBuf) (vready : Fifo VecBuf) :
    List VecBuf → RcvrVecWhileOut
  | [] => ⟨ready, tgt, vready, [], []⟩
  | vb :: pool2 =>
    if fifo_full vready || fifo_empty ready then
      ⟨ready, tgt, vready, vb :: pool2, []⟩
    else
      let g := rcvr_vector_gather 12 ready tgt []
      let rest := rcvr_vector_while g.1 g.2.1
        (fifo_put vready
          ⟨least_vector_msglen + vector_iov_size * g.2.2.length,
           ⟨g.2.2.length, g.2.2⟩⟩).2 pool2
      ⟨rest.ready, rest.tgt, rest.vready, rest.pool,
       (⟨g.2.2.length, g.2.2⟩ : VecMsg) :: rest.emitted⟩

/-- Model of `rcvr_vector_update`; the second component is a ghost trace of
the vector messages enqueued on `vec.ready` this invocation.  When the
remote has sent EOF and local EOF is still unsent, a single empty vector
(`niovs = 0`, `nused = offsetof(iov)`) is enqueued (if `vec.ready` has room
and the pool is non-empty) and `eof.local` is set; once `eof.remote` holds,
no other vector is ever enqueued. -/
def rcvr_vector_update (r : RcvrVec) : RcvrVec × List VecMsg :=
  match (if r.eof_remote && !r.eof_local && !(fifo_full r.vec_ready) then
           buflist_get r.vec_pool else none) with
  | some (_, pool2) =>
    ({ r with
       vec_ready := (fifo_put r.vec_ready ⟨least_vector_msglen, ⟨0, []⟩⟩).2
       vec_pool := pool2
       eof_local := true },
     [⟨0, []⟩])
  | none =>
    if r.eof_remote then (r, [])
    else
      ({ r with
         ready_for_cxn :=
           (rcvr_vector_while r.ready_for_cxn r.tgtposted r.vec_ready r.vec_pool).ready
         tgtposted :=
           (rcvr_vector_while r.ready_for_cxn r.tgtposted r.vec_ready r.vec_pool).tgt
         vec_ready :=
           (rcvr_vector_while r.ready_for_cxn r.tgtposted r.vec_ready r.vec_pool).vready
         vec_pool :=
           (rcvr_vector_while r.ready_for_cxn r.tgtposted r.vec_ready r.vec_pool).pool },
       (rcvr_vector_while r.ready_for_cxn r.tgtposted r.vec_ready r.vec_pool).emitted)

theorem fifo_get_some_of_not_empty {α : Type} (f : Fifo α)
    (h : fifo_empty f = false) :
    fifo_get f = (some (f.hdr (f.removals &&& f.index_mask)),
      { f with removals := f.removals + 1 }) := by
  unfold fifo_empty at h
  have heo : fifo_eoget f = false := by
    cases hq : fifo_eoget f
    · rfl
    · rw [hq] at h
      simp at h
  have hne : f.insertions ≠ f.removals := by
    intro hc
    rw [heo] at h
    unfold fifo_alt_empty at h
    rw [hc] at h
    simp at h
  unfold fifo_get fifo_alt_get
  rw [heo]
  rw [if_neg (by simp : ¬ ((false : Bool) = true)), if_neg hne]

theorem rcvr_vector_gather_grows (fuel : Nat) :
    ∀ (ready tgt : Fifo TgtBuf) (entries : List VecEntry),
      entries.length ≤ (rcvr_vector_gather fuel ready tgt entries).2.2.length := by
  induction fuel with
  | zero =>
    intro ready tgt entries
    exact le_refl _
  | succ fu ih =>
    intro ready tgt entries
    unfold rcvr_vector_gather
    cases hg : fifo_get ready with
    | mk o ready2 =>
      cases o with
      | none => exact le_refl _
      | some h =>
        show entries.length ≤ (rcvr_vector_gather fu ready2
          (fifo_put tgt { h with nused := 0 }).2
          (entries ++ [{ addr := 0, len := h.nallocated, key := h.key }])).2.2.length
        have := ih ready2 (fifo_put tgt { h with nused := 0 }).2
          (entries ++ [{ addr := 0, len := h.nallocated, key := h.key }])
        simp only [List.length_append, List.length_singleton] at this
        omega

theorem rcvr_vector_gather_nonempty (ready tgt : Fifo TgtBuf)
    (h : fifo_empty ready = false) :
    1 ≤ (rcvr_vector_gather 12 ready tgt []).2.2.length := by
  have hg := fifo_get_some_of_not_empty ready h
  show 1 ≤ (rcvr_vector_gather (11 + 1) ready tgt []).2.2.length
  unfold rcvr_vector_gather
  rw [hg]
  have := rcvr_vector_gather_grows 11
    { ready with removals := ready.removals + 1 }
    (fifo_put tgt { ready.hdr (ready.removals &&& ready.index_mask) with
      nused := 0 }).2
    ([] ++ [{ addr := 0, len := (ready.hdr (ready.removals &&& ready.index_mask)).nallocated,
              key := (ready.hdr (ready.removals &&& ready.index_mask)).key }])
  simp only [List.nil_append, List.length_singleton] at this
  simpa using this

theorem rcvr_vector_while_nonempty (pool : List VecBuf) :
    ∀ (ready tgt : Fifo TgtBuf) (vready : Fifo VecBuf),
      ∀ m ∈ (rcvr_vector_while ready tgt vready pool).emitted, 1 ≤ m.niovs := by
  induction pool with
  | nil =>
    intro ready tgt vready m hm
    exact absurd hm (by simp [rcvr_vector_while])
  | cons vb pool2 ih =>
    intro ready tgt vready m hm
    unfold rcvr_vector_while at hm
    split at hm
    · exact absurd hm (by simp)
    · rename_i hguard
      have hempty : fifo_empty ready = false := by
        cases hq : fifo_empty ready
        · rfl
        · exact absurd (by rw [hq]; simp) hguard
      simp only [List.mem_cons] at hm
      rcases hm with hm | hm
      · rw [hm]
        exact rcvr_vector_gather_nonempty ready tgt hempty
      · exact ih _ _ _ m hm

theorem rcvr_vector_update_nonempty_step (r : RcvrVec) (m : VecMsg)
    (hm : m ∈ (rcvr_vector_update r).2) (h1 : 1 ≤ m.niovs) :
    r.eof_remote = false := by
  unfold rcvr_vector_update at hm
  split at hm
  · simp only [List.mem_singleton] at hm
    rw [hm] at h1
    exact absurd h1 (by simp)
  · split at hm
    · exact absurd hm (by simp)
    · rename_i heor
      cases hq : r.eof_remote
      · rfl
      · exact absurd rfl (by rw [hq] at heor; exact heor)

theorem rcvr_vector_update_empty_step (r : RcvrVec) (m : VecMsg)
    (hm : m ∈ (rcvr_vector_update r).2) (h0 : m.niovs = 0) :
    r.eof_remote = true ∧ r.eof_local = false ∧
    (rcvr_vector_update r).1.eof_local = true := by
  unfold rcvr_vector_update at hm ⊢
  split at hm
  · rename_i vb pool2 hcond
    have hcond2 : (r.eof_remote && !r.eof_local && !(fifo_full r.vec_ready)) = true := by
      cases hq : (r.eof_remote && !r.eof_local && !(fifo_full r.vec_ready))
      · rw [if_neg (by rw [hq]; simp)] at hcond
        exact absurd hcond (by simp)
      · rfl
    have h1 : r.eof_remote = true := by
      cases hq : r.eof_remote
      · rw [hq] at hcond2
        simp at hcond2
      · rfl
    have h2 : r.eof_local = false := by
      cases hq : r.eof_local
      · rfl
      · rw [hq] at hcond2
        simp at hcond2
    exact ⟨h1, h2, rfl⟩
  · split at hm
    · exact absurd hm (by simp)
    · rename_i heor
      exfalso
      have := rcvr_vector_while_nonempty r.vec_pool r.ready_for_cxn
        r.tgtposted r.vec_ready m hm
      omega

theorem rcvr_vector_update_no_empty_step (r : RcvrVec)
    (hno : ∀ m ∈ (rcvr_vector_update r).2, m.niovs ≠ 0) :
    (rcvr_vector_update r).1.eof_local = r.eof_local := by
  unfold rcvr_vector_update at hno ⊢
  split at hno
  · exfalso
    have hc := hno ⟨0, []⟩ (by simp)
    simp at hc
  · split
    · rfl
    · rfl

/-- Interleavings of `rcvr_vector_update` steps with arbitrary other
receiver activity that never clears `eof.local` (nothing in `fget.c`
resets `cxn.eof.local` after `cxn_init`).  `ms` collects the vector
messages enqueued by the update steps, in order. -/
inductive RcvrVecReach : RcvrVec → List VecMsg → RcvrVec → Prop
  | refl (x : RcvrVec) : RcvrVecReach x [] x
  | update (x : RcvrVec) (ms : List VecMsg) (y : RcvrVec) :
      RcvrVecReach x ms y →
      RcvrVecReach x (ms ++ (rcvr_vector_update y).2) (rcvr_vector_update y).1
  | env (x : RcvrVec) (ms : List VecMsg) (y z : RcvrVec) :
      RcvrVecReach x ms y →
      (y.eof_local = true → z.eof_local = true) →
      RcvrVecReach x ms z

theorem rcvr_vector_update_emitted_shape (y : RcvrVec) :
    ((rcvr_vector_update y).2 = [⟨0, []⟩] ∧ (rcvr_vector_update y).1.eof_local = true ∧
      y.eof_local = false) ∨
    ((∀ m ∈ (rcvr_vector_update y).2, m.niovs ≠ 0) ∧
      (rcvr_vector_update y).1.eof_local = y.eof_local) := by
  unfold rcvr_vector_update
  split
  · rename_i vb pool2 hcond
    left
    have hcond2 : (y.eof_remote && !y.eof_local && !(fifo_full y.vec_ready)) = true := by
      cases hq : (y.eof_remote && !y.eof_local && !(fifo_full y.vec_ready))
      · rw [if_neg (by rw [hq]; simp)] at hcond
        exact absurd hcond (by simp)
      · rfl
    have h2 : y.eof_local = false := by
      cases hq : y.eof_local
      · rfl
      · rw [hq] at hcond2
        simp at hcond2
    exact ⟨rfl, rfl, h2⟩
  · split
    · right
      exact ⟨by simp, rfl⟩
    · right
      refine ⟨?_, rfl⟩
      intro m hm
      have := rcvr_vector_while_nonempty y.vec_pool y.ready_for_cxn
        y.tgtposted y.vec_ready m hm
      omega

theorem rcvr_vec_reach_count (x : RcvrVec) (ms : List VecMsg) (y : RcvrVec)
    (hreach : RcvrVecReach x ms y) (hinit : x.eof_local = false) :
    (ms.filter (fun m => m.niovs == 0)).length ≤ 1 ∧
    (y.eof_local = false → (ms.filter (fun m => m.niovs == 0)).length = 0) := by
  induction hreach with
  | refl => exact ⟨by simp, by simp⟩
  | update ms y hr ih =>
    obtain ⟨ih1, ih2⟩ := ih
    rcases rcvr_vector_update_emitted_shape y with ⟨he, hpost, hy⟩ | ⟨hne, hpost⟩
    · rw [he]
      have hc0 := ih2 hy
      simp only [List.filter_append, List.length_append, hc0]
      have hc1 : (([(⟨0, []⟩ : VecMsg)]).filter (fun m => m.niovs == 0)).length = 1 := by
        simp
      rw [hc1]
      refine ⟨by omega, fun hf => absurd hpost (by rw [hf]; simp)⟩
    · have hnil : (rcvr_vector_update y).2.filter (fun m => m.niovs == 0) = [] :=
        List.filter_eq_nil_iff.mpr (fun m hm => by simpa using hne m hm)
      simp only [List.filter_append, List.length_append, hnil, List.length_nil]
      refine ⟨by omega, fun hf => ?_⟩
      rw [hpost] at hf
      have := ih2 hf
      omega
  | env ms y z hr hmono ih =>
    obtain ⟨ih1, ih2⟩ := ih
    refine ⟨ih1, fun hz => ih2 ?_⟩
    cases hq : y.eof_local
    · rfl
    · exact absurd (hmono hq) (by rw [hz]; simp)

/-- Receiver connection flag read and written by the ack-send path. -/
structure RcvrAck where
  sent_first : Bool
deriving DecidableEq, Repr

/-- Model of `rcvr_ack_send`: `send_ok = true` models `fi_sendmsg`
returning 0 (ack handed to the NIC, `sent_first` set, `loop_end`);
`send_ok = false` models `-FI_EAGAIN` (deferred transmission, nothing
sent, `loop_continue`).  Any other return aborts the process.  The Bool
component records whether an ack was handed to the NIC. -/
def rcvr_ack_send (send_ok : Bool) (c : RcvrAck) : RcvrAck × Bool × LoopControl :=
  if send_ok then ({ sent_first := true }, true, .loop_end)
  else (c, false, .loop_continue)

/-- The guard in `rcvr_loop`:
`switch (r->cxn.sent_first ? loop_end : rcvr_ack_send(r))` — the ack send
is attempted only while `sent_first` is false. -/
def rcvr_loop_ack_phase (send_ok : Bool) (c : RcvrAck) : RcvrAck × Bool :=
  if c.sent_first then (c, false)
  else ((rcvr_ack_send send_ok c).1, (rcvr_ack_send send_ok c).2.1)

/-- Acks transmitted over a sequence of `rcvr_loop` iterations with the
given fabric send results. -/
def rcvr_ack_run (c : RcvrAck) : List Bool → RcvrAck × Nat
  | [] => (c, 0)
  | ok :: rest =>
    ((rcvr_ack_run (rcvr_loop_ack_phase ok c).1 rest).1,
     (if (rcvr_loop_ack_phase ok c).2 then 1 else 0) +
       (rcvr_ack_run (rcvr_loop_ack_phase ok c).1 rest).2)

theorem rcvr_ack_run_count (oks : List Bool) :
    ∀ c : RcvrAck, (rcvr_ack_run c oks).2 ≤ 1 ∧
      (c.sent_first = true → (rcvr_ack_run c oks).2 = 0) := by
  induction oks with
  | nil =>
    intro c
    exact ⟨by show (0 : Nat) ≤ 1; omega, fun _ => rfl⟩
  | cons ok rest ih =>
    intro c
    by_cases hs : c.sent_first = true
    · have hph : rcvr_loop_ack_phase ok c = (c, false) := by
        unfold rcvr_loop_ack_phase
        rw [if_pos hs]
      unfold rcvr_ack_run
      rw [hph]
      obtain ⟨i1, i2⟩ := ih c
      have hz := i2 hs
      constructor
      · show (if false then 1 else 0) + (rcvr_ack_run c rest).2 ≤ 1
        rw [hz]
        simp
      · intro _
        show (if false then 1 else 0) + (rcvr_ack_run c rest).2 = 0
        rw [hz]
        simp
    · have hs2 : c.sent_first = false := by
        cases hq : c.sent_first
        · rfl
        · exact absurd hq hs
      cases hok : ok
      · have hph : rcvr_loop_ack_phase false c = (c, false) := by
          unfold rcvr_loop_ack_phase rcvr_ack_send
          rw [if_neg (by rw [hs2]; simp)]
          rw [if_neg (by simp : ¬ ((false : Bool) = true))]
        unfold rcvr_ack_run
        rw [hph]
        obtain ⟨i1, i2⟩ := ih c
        constructor
        · show (if false then 1 else 0) + (rcvr_ack_run c rest).2 ≤ 1
          simpa using i1
        · intro hc
          exact absurd hc (by rw [hs2]; simp)
      · have hph : rcvr_loop_ack_phase true c = (⟨true⟩, true) := by
          unfold rcvr_loop_ack_phase rcvr_ack_send
          rw [if_neg (by rw [hs2]; simp)]
          rw [if_pos rfl]
        unfold rcvr_ack_run
        rw [hph]
        obtain ⟨i1, i2⟩ := ih ⟨true⟩
        have hz := i2 rfl
        constructor
        · show (if true then 1 else 0) + (rcvr_ack_run ⟨true⟩ rest).2 ≤ 1
          rw [hz]
          simp
        · intro hc
          exact absurd hc (by rw [hs2]; simp)

/-- Claim C3.  The receiver never enqueues a non-empty vector message after
`eof.remote` is set (every enqueued message with `niovs ≥ 1` happens while
`eof.remote` is false); an empty (`niovs == 0`) vector message is enqueued
only while `eof.local` is false and sets `eof.local` in the same step, so —
along any interleaving of `rcvr_vector_update` steps with receiver activity
that never clears `eof.local` — at most one empty vector message is ever
enqueued; and the acknowledgement is sent at most once: `rcvr_loop` guards
the send by `sent_first`, a successful `rcvr_ack_send` sets `sent_first`,
and over any sequence of loop iterations at most one ack is handed to the
NIC. -/
theorem C3_rcvr_wire_contract (x : RcvrVec) (ms : List VecMsg) (y : RcvrVec)
    (hreach : RcvrVecReach x ms y) (hinit : x.eof_local = false) :
    (∀ r m, m ∈ (rcvr_vector_update r).2 → 1 ≤ m.niovs → r.eof_remote = false) ∧
    (∀ r m, m ∈ (rcvr_vector_update r).2 → m.niovs = 0 →
      r.eof_remote = true ∧ r.eof_local = false ∧
      (rcvr_vector_update r).1.eof_local = true) ∧
    (ms.filter (fun m => m.niovs == 0)).length ≤ 1 ∧
    (y.eof_local = false → (ms.filter (fun m => m.niovs == 0)).length = 0) ∧
    (∀ send_ok c, (rcvr_loop_ack_phase send_ok c).2 = true →
      c.sent_first = false ∧ (rcvr_loop_ack_phase send_ok c).1.sent_first = true) ∧
    (∀ oks : List Bool, (rcvr_ack_run ⟨false⟩ oks).2 ≤ 1) := by
  refine ⟨rcvr_vector_update_nonempty_step, rcvr_vector_update_empty_step,
    (rcvr_vec_reach_count x ms y hreach hinit).1,
    (rcvr_vec_reach_count x ms y hreach hinit).2, ?_, ?_⟩
  · intro send_ok c hsent
    unfold rcvr_loop_ack_phase at hsent ⊢
    by_cases hs : c.sent_first = true
    · rw [if_pos hs] at hsent
      exact absurd hsent (by simp)
    · have hs2 : c.sent_first = false := by
        cases hq : c.sent_first
        · rfl
        · exact absurd hq hs
      rw [if_neg hs] at hsent ⊢
      unfold rcvr_ack_send at hsent ⊢
      cases hok : send_ok
      · rw [hok] at hsent
        rw [if_neg (by simp : ¬ ((false : Bool) = true))] at hsent
        exact absurd hsent (by simp)
      · rw [if_pos rfl]
        exact ⟨hs2, rfl⟩
  · intro oks
    exact (rcvr_ack_run_count oks ⟨false⟩).1

/-- Concrete instantiation of `C3_rcvr_wire_contract`: a receiver that has
seen remote EOF with local EOF unsent enqueues the single empty vector and
sets `eof.local` in the same step, and three loop iterations (one deferred
send, then successes) transmit exactly at most one ack. -/
theorem C3_rcvr_wire_contract_witness :
    (rcvr_vector_update
        ⟨false, true, fifo_create TgtBuf 4, fifo_create TgtBuf 4,
         fifo_create VecBuf 4, [⟨0, ⟨0, []⟩⟩]⟩).1.eof_local = true ∧
    (rcvr_ack_run ⟨false⟩ [false, true, true]).2 ≤ 1 := by
  have h := C3_rcvr_wire_contract
    ⟨false, true, fifo_create TgtBuf 4, fifo_create TgtBuf 4,
     fifo_create VecBuf 4, [⟨0, ⟨0, []⟩⟩]⟩ []
    ⟨false, true, fifo_create TgtBuf 4, fifo_create TgtBuf 4,
     fifo_create VecBuf 4, [⟨0, ⟨0, []⟩⟩]⟩
    (RcvrVecReach.refl _) rfl
  refine ⟨?_, h.2.2.2.2.2 [false, true, true]⟩
  exact (h.2.1 _ ⟨0, []⟩ (by decide) rfl).2.2

/-!
## Claim C6: the fragmentation invariant on `wrposted`

The transmitter's write path is modelled with an explicit buffer heap
(`Nat`-indexed, mirroring the C pointer identities); FIFOs hold buffer ids.
The remote-IOV double buffer (`riov`/`riov2` plus `nriovs` and `phase`) is
modelled by the list of live entries of the active array plus the `phase`
bit: the C code only ever reads the first `nriovs` entries of the active
array.  Loop fuels are the C loops' own variants (`maxriovs - i` for the
packing loop, the `wrposted` occupancy for the completion-consumption
loops), so every recursion is structural and evaluable.
-/

/-- Transfer-context types on the write path. -/
inductive XftType
  | xft_rdma_write
  | xft_fragment
deriving DecidableEq, Repr

/-- Buffer fields read and written on the transmitter's write path:
context type, owner (`true` = `xfo_nic`), place bitset (1 = `xfp_first`,
2 = `xfp_last`), outstanding fragment children, fill level, fragment offset
into the parent (`raddr`), and the fragment's parent id. -/
structure WrBuf where
  btype : XftType
  owner_nic : Bool
  place : Nat
  nchildren : Nat
  nused : Nat
  raddr : Nat
  parent : Nat
deriving DecidableEq, Repr

instance : Inhabited WrBuf := ⟨⟨.xft_rdma_write, false, 0, 0, 0, 0, 0⟩⟩

/-- Pointwise heap update. -/
def hupd (heap : Nat → WrBuf) (i : Nat) (b : WrBuf) : Nat → WrBuf :=
  fun j => if j = i then b else heap j

/-- Transmitter state on the write path (`xmtr_t` fields used by
`xmtr_targets_write` and the RDMA branch of `xmtr_cq_process`). -/
structure XmtrWrite where
  heap : Nat → WrBuf
  ready_for_cxn : Fifo Nat
  wrposted : Fifo Nat
  ready_for_terminal : Fifo Nat
  frag_pool : List Nat
  frag_offset : Nat
  riov : List RmaIov
  phase : Bool
  bytes_progress : Nat
  rma_maxsegs : Nat

/-- Model of `xmtr_buf_split`: take a fragment header off the pool (the
`errx` on an empty pool is `none`), fill `raddr = fragment.offset`,
`nused = len`, link it to the parent and increment the parent's
`nchildren`. -/
def xmtr_buf_split (x : XmtrWrite) (parentId len : Nat) :
    Option (XmtrWrite × Nat) :=
  match x.frag_pool with
  | [] => none
  | fid :: pool2 =>
    some
      ({ x with
         heap :=
           hupd
             (hupd x.heap fid
               { x.heap fid with
                 btype := .xft_fragment
                 nused := len
                 raddr := x.frag_offset
                 parent := parentId })
             parentId
             { x.heap parentId with nchildren := (x.heap parentId).nchildren + 1 }
         frag_pool := pool2 }, fid)

/-- Accumulated result of the packing loop of `xmtr_targets_write`. -/
structure TargetsLoopOut where
  x : XmtrWrite
  total : Nat
  iovs : List Iovec
  first_h : Option Nat
  last_h : Option Nat
  fatal : Bool

/-- The `for` loop of `xmtr_targets_write`: while `i < maxriovs`, a head
buffer is pending, `total < maxbytes` and `wrposted` has room, either take
the head whole or (when it overflows the remaining remote capacity and no
more remote vectors are expected) split off a fragment covering the
remaining capacity; mark each taken buffer `owner = program, place = 0`,
append its local IOV slice, and enqueue it on `wrposted`.  `fuel` is
`maxriovs - i`; local IOV bases are offsets into the head buffer's
payload. -/
def xmtr_targets_loop (maxbytes : Nat) (riovs_maxed_out : Bool) :
    Nat → XmtrWrite → Nat → List Iovec → Option Nat → Option Nat → TargetsLoopOut
  | 0, x, total, iovs, fh, lh => ⟨x, total, iovs, fh, lh, false⟩
  | fu + 1, x, total, iovs, fh, lh =>
    match fifo_peek x.ready_for_cxn with
    | none => ⟨x, total, iovs, fh, lh, false⟩
    | some headId =>
      if maxbytes ≤ total then ⟨x, total, iovs, fh, lh, false⟩
      else if fifo_full x.wrposted then ⟨x, total, iovs, fh, lh, false⟩
      else
        let head := x.heap headId
        let oversize := decide (maxbytes - total < head.nused - x.frag_offset)
        if oversize && !riovs_maxed_out then ⟨x, total, iovs, fh, lh, false⟩
        else
          let len := if oversize then maxbytes - total
                     else head.nused - x.frag_offset
          let x1 := if x.frag_offset = 0 then
              { x with heap := hupd x.heap headId { head with nchildren := 0 } }
            else x
          if oversize then
            match xmtr_buf_split x1 headId len with
            | none => ⟨x1, total, iovs, fh, lh, true⟩
            | some (x2, fid) =>
              let x3 :=
                { x2 with
                  wrposted := (fifo_put x2.wrposted fid).2
                  heap := hupd x2.heap fid
                    { x2.heap fid with owner_nic := false, place := 0 }
                  frag_offset := x2.frag_offset + len }
              xmtr_targets_loop maxbytes riovs_maxed_out fu x3 (total + len)
                (iovs ++ [⟨x.frag_offset, len⟩])
                (match lh with | none => some fid | some _ => fh) (some fid)
          else
            let x3 :=
              { x1 with
                ready_for_cxn := (fifo_get x1.ready_for_cxn).2
                wrposted := (fifo_put x1.wrposted headId).2
                heap := hupd x1.heap headId
                  { x1.heap headId with owner_nic := false, place := 0 }
                frag_offset := 0 }
            xmtr_targets_loop maxbytes riovs_maxed_out fu x3 (total + len)
              (iovs ++ [⟨x.frag_offset, len⟩])
              (match lh with | none => some headId | some _ => fh) (some headId)

/-- Model of `xmtr_targets_write`: compute the remote capacity of the
active vector array, run the packing loop, then flag the first buffer
`owner = nic, place = first` and the last `place |= last`, issue the single
`fi_writemsg` via `write_fully` (assumed to succeed), require that the
local slices were fully written, store the leftover remote IOVs into the
inactive array and flip `phase`. -/
def xmtr_targets_write (x : XmtrWrite) : XmtrWrite × LoopControl :=
  let maxriovs := minsize x.rma_maxsegs x.riov.length
  let maxbytes := ((x.riov.take maxriovs).map RmaIov.len).sum
  let riovs_maxed_out := decide (x.rma_maxsegs ≤ x.riov.length)
  let L := xmtr_targets_loop maxbytes riovs_maxed_out maxriovs x 0 [] none none
  if L.fatal then (L.x, .loop_error)
  else
    match L.first_h, L.last_h with
    | some fh, some lh =>
      let fb := { L.x.heap fh with owner_nic := true, place := 1 }
      let x1 := { L.x with heap := hupd L.x.heap fh fb }
      let lb := { x1.heap lh with place := (x1.heap lh).place ||| 2 }
      let x2 := { x1 with heap := hupd x1.heap lh lb }
      let w := write_fully L.iovs x.riov L.total maxriovs
      if w.len ≠ L.total ∨ w.iov_out.length ≠ 0 then (x2, .loop_error)
      else ({ x2 with riov := w.riov_out, phase := !x2.phase }, .loop_continue)
    | _, _ => (L.x, .loop_continue)

/-- First consumption loop of the RDMA branch of `xmtr_cq_process`:
pop program-owned fragments at the head of `wrposted`, decrement their
parents' `nchildren`, and return the headers to the fragment pool. -/
def xmtr_cq_frag_loop : Nat → XmtrWrite → XmtrWrite
  | 0, x => x
  | fu + 1, x =>
    match fifo_peek x.wrposted with
    | none => x
    | some hid =>
      if (x.heap hid).owner_nic = false ∧ (x.heap hid).btype = .xft_fragment then
        xmtr_cq_frag_loop fu
          { x with
            wrposted := (fifo_get x.wrposted).2
            heap := hupd x.heap (x.heap hid).parent
              { x.heap (x.heap hid).parent with
                nchildren := (x.heap (x.heap hid).parent).nchildren - 1 }
            frag_pool := hid :: x.frag_pool }
      else x

/-- Second consumption loop of the RDMA branch of `xmtr_cq_process`:
pop program-owned whole RDMA-write buffers with `nchildren == 0` at the
head of `wrposted` into `ready_for_terminal` (via `fifo_alt_put`),
accumulating `bytes_progress`. -/
def xmtr_cq_write_loop : Nat → XmtrWrite → XmtrWrite
  | 0, x => x
  | fu + 1, x =>
    match fifo_peek x.wrposted with
    | none => x
    | some hid =>
      if (x.heap hid).owner_nic = false ∧ (x.heap hid).btype = .xft_rdma_write ∧
         (x.heap hid).nchildren = 0 ∧ fifo_full x.ready_for_terminal = false then
        xmtr_cq_write_loop fu
          { x with
            wrposted := (fifo_get x.wrposted).2
            bytes_progress := x.bytes_progress + (x.heap hid).nused
            ready_for_terminal := (fifo_alt_put x.ready_for_terminal hid).2 }
      else x

/-- Model of the `xft_fragment`/`xft_rdma_write` branch of
`xmtr_cq_process` for a successful RDMA-write completion whose context
belongs to buffer `ctxId`: flip that buffer to `owner = program`
(`cmpl.xfc->owner = xfo_program`), require a head of `wrposted` carrying
`place & xfp_first` (else return -1, the "expected `first` context at
head" error), then run the two consumption loops.  The loop fuels are the
`wrposted` occupancy. -/
def xmtr_cq_process_rdma (x : XmtrWrite) (ctxId : Nat) : XmtrWrite × Int :=
  let cb := { x.heap ctxId with owner_nic := false }
  let x0 := { x with heap := hupd x.heap ctxId cb }
  match fifo_peek x0.wrposted with
  | none => (x0, -1)
  | some hid =>
    if (x0.heap hid).place &&& 1 = 0 then (x0, -1)
    else
      let x1 := xmtr_cq_frag_loop (x0.wrposted.insertions - x0.wrposted.removals) x0
      (xmtr_cq_write_loop (x1.wrposted.insertions - x1.wrposted.removals) x1, 1)

/-- Heap of the C6 trace: buffer 1 is a 5-byte tx payload buffer, buffer 2
a 20-byte one (both `xft_rdma_write`, as `worker_paybuflist_replenish`
creates them), ids 10 and 11 are free fragment headers. -/
def c6_heap0 : Nat → WrBuf := fun i =>
  if i = 1 then ⟨.xft_rdma_write, false, 0, 0, 5, 0, 0⟩
  else if i = 2 then ⟨.xft_rdma_write, false, 0, 0, 20, 0, 0⟩
  else if i = 10 then ⟨.xft_fragment, false, 0, 0, 0, 0, 0⟩
  else if i = 11 then ⟨.xft_fragment, false, 0, 0, 0, 0, 0⟩
  else default

/-- Start of the C6 trace: a transmitter mid-session with two advertised
10-byte remote targets (`rma_maxsegs = 2`, so the remote arrays are maxed
out and fragmentation is permitted), and tx buffers of 5 and 20 bytes
pending on `ready_for_cxn`. -/
def c6_state0 : XmtrWrite :=
  { heap := c6_heap0
    ready_for_cxn := (fifo_put (fifo_put (fifo_create Nat 4) 1).2 2).2
    wrposted := fifo_create Nat 4
    ready_for_terminal := fifo_create Nat 4
    frag_pool := [10, 11]
    frag_offset := 0
    riov := [⟨100, 10, 1⟩, ⟨200, 10, 2⟩]
    phase := false
    bytes_progress := 0
    rma_maxsegs := 2 }

/-- After the first `xmtr_targets_write`: batch `[whole 5-byte buffer 1,
15-byte fragment 10 of buffer 2]` is posted and written. -/
def c6_state1 : XmtrWrite := (xmtr_targets_write c6_state0).1

/-- Environment step between worker-loop iterations: the receiver's next
vector message advertises one 7-byte target, which `xmtr_vecbuf_unload`
loads into the active array. -/
def c6_state2 : XmtrWrite := { c6_state1 with riov := [⟨300, 7, 3⟩] }

/-- After the second `xmtr_targets_write`: the 5-byte remainder of buffer 2
is taken whole as batch `[buffer 2]` and written. -/
def c6_state3 : XmtrWrite := (xmtr_targets_write c6_state2).1

/-- After processing the completion of the first write (context buffer 1). -/
def c6_state4 : XmtrWrite := (xmtr_cq_process_rdma c6_state3 1).1

/-- Claim C6, failing trace.  In an error-free execution (both writes
succeed, `loop_continue` throughout, the first completion is consumed
normally), the fragment posted at the tail of the first batch is left at
the head of `wrposted` — owner `program`, `place = xfp_last` only — so when
the second write's completion is processed the head of `wrposted` does not
carry `xfp_first`, and `xmtr_cq_process` returns -1 (the session fails with
`loop_error`), contradicting the claimed invariant.  Buffer 2 still has
`nchildren = 1` at this point, so its fragment child was never reconciled
either. -/
theorem C6_wrposted_head_not_first :
    (xmtr_targets_write c6_state0).2 = .loop_continue ∧
    (xmtr_targets_write c6_state2).2 = .loop_continue ∧
    (xmtr_cq_process_rdma c6_state3 1).2 = 1 ∧
    fifo_peek c6_state4.wrposted = some 10 ∧
    (c6_state4.heap 10).btype = .xft_fragment ∧
    (c6_state4.heap 10).owner_nic = false ∧
    (c6_state4.heap 10).place &&& 1 = 0 ∧
    (c6_state4.heap 2).nchildren = 1 ∧
    (xmtr_cq_process_rdma c6_state4 2).2 = -1 := by
  refine ⟨by decide, by decide, by decide, by decide, by decide, by decide,
    by decide, by decide, by decide⟩
